import Mathlib

/- Verification development for the supply-chain cost allocation and
   transfer pricing engine (src/index.js).

   Embedding conventions:
   - JS numbers are modelled as exact rationals (ℚ).
   - JS Map is modelled as an insertion-ordered association list; Map.set
     updates in place, Map iteration follows insertion order.
   - JS Set is modelled as an insertion-ordered duplicate-free list.
   - JS throw is modelled as Except.error; functions that cannot throw are
     total.
   - Unbounded JS recursion (markDirty, explodeBOM, the convert fallback)
     is modelled with explicit fuel; theorems show the fuel is irrelevant
     or sufficient where needed. -/

namespace SupplyChain

/-- JS Map.get: first binding for the key in an insertion-ordered
    association list. -/
def lookupA {β : Type} (l : List (String × β)) (k : String) : Option β :=
  match l with
  | [] => none
  | (k1, v) :: rest => if k1 = k then some v else lookupA rest k

/-- JS Map.set: update the existing binding in place (preserving insertion
    order) or append a new binding at the end. -/
def setA {β : Type} (l : List (String × β)) (k : String) (v : β) :
    List (String × β) :=
  match l with
  | [] => [(k, v)]
  | (k1, v1) :: rest => if k1 = k then (k, v) :: rest else (k1, v1) :: setA rest k v

/-- JS Set.add: append the element if absent, preserving insertion order. -/
def setAdd (s : List String) (k : String) : List String :=
  if k ∈ s then s else s ++ [k]

theorem lookupA_setA_self {β : Type} (l : List (String × β)) (k : String) (v : β) :
    lookupA (setA l k v) k = some v := by
  induction l with
  | nil => simp [setA, lookupA]
  | cons hd tl ih =>
    obtain ⟨k1, v1⟩ := hd
    by_cases h : k1 = k
    · simp [setA, h, lookupA]
    · simp [setA, h, lookupA, ih]

theorem lookupA_setA_ne {β : Type} (l : List (String × β)) (k a : String) (v : β)
    (h : k ≠ a) : lookupA (setA l k v) a = lookupA l a := by
  induction l with
  | nil => simp [setA, lookupA, h]
  | cons hd tl ih =>
    obtain ⟨k1, v1⟩ := hd
    by_cases h1 : k1 = k
    · subst h1
      simp [setA, lookupA, h]
    · simp [setA, h1, lookupA, ih]

-- ===========================================================================
-- COST STATE MANAGER (class CostState): dirty propagation slice
-- ===========================================================================

namespace CostState

/-- this.dependencies : Map(key -> Set of keys that depend on it). -/
abbrev Deps := List (String × List String)

/-- addDependency(sourceKey, dependentKey): create the set on first use,
    then Set.add the dependent. -/
def addDependency (deps : Deps) (sourceKey dependentKey : String) : Deps :=
  match lookupA deps sourceKey with
  | none => setA deps sourceKey (setAdd [] dependentKey)
  | some s => setA deps sourceKey (setAdd s dependentKey)

/-- markDirty(key): add the key to the dirty set, then recursively mark
    every registered dependent dirty.  The source recursion has no cycle
    guard; it is modelled with explicit fuel (the source is only called on
    acyclic dependency registrations, where any fuel past the dependency
    depth gives the same answer). -/
def markDirty (deps : Deps) : Nat → List String → String → List String
  | 0, dirty, _ => dirty
  | fuel + 1, dirty, key =>
    let dirty1 := setAdd dirty key
    match lookupA deps key with
    | none => dirty1
    | some dependents =>
      dependents.foldl (fun d dep => markDirty deps fuel d dep) dirty1

/-- getDirtyKeys(): Array.from of the dirty set, i.e. the insertion-ordered
    list itself. -/
def getDirtyKeys (dirty : List String) : List String := dirty

/-- clearDirty(): this.dirty.clear(). -/
def clearDirty (_dirty : List String) : List String := []

end CostState

-- ===========================================================================
-- CURRENCY CONVERTER (class CurrencyConverter)
-- ===========================================================================

namespace CurrencyConverter

/-- this.rates: period -> (currency-pair key such as "EUR/USD" -> rate).
    The source stores nested plain objects; modelled as insertion-ordered
    association lists. -/
abbrev Rates := List (String × List (String × ℚ))

/-- periodToNumber("YYYY-Qn") = year * 4 + quarter.  JS parseInt on a
    malformed piece yields NaN; those unreachable-for-our-claims branches
    are modelled as 0. -/
def periodToNumber (period : String) : Int :=
  match period.splitOn "-Q" with
  | y :: q :: _ => (y.toNat?.getD 0 : Int) * 4 + (q.toNat?.getD 0 : Int)
  | _ => 0

/-- The in-period part of convert: convert to USD first, then to the
    target currency; a missing pair rate is a throw. -/
def convertAt (periodRates : List (String × ℚ)) (amount : ℚ)
    (fromCurrency toCurrency : String) : Except String ℚ :=
  let usdStep : Except String ℚ :=
    if fromCurrency = "USD" then .ok amount
    else
      match lookupA periodRates (fromCurrency ++ "/USD") with
      | none => .error "Missing exchange rate"
      | some r => .ok (amount * r)
  match usdStep with
  | .error e => .error e
  | .ok amountInUSD =>
    if toCurrency = "USD" then .ok amountInUSD
    else
      match lookupA periodRates (toCurrency ++ "/USD") with
      | none => .error "Missing exchange rate"
      | some r => .ok (amountInUSD / r)

/-- The nearest-period fallback: reduce over the sorted period keys keeping
    the key whose periodToNumber is strictly nearer to the requested
    period. -/
def nearestPeriod (rates : Rates) (period : String) : Option String :=
  let periods := (rates.map Prod.fst).mergeSort (fun a b => a ≤ b)
  periods.foldl (fun nearest p =>
    match nearest with
    | none => some p
    | some n =>
      if (periodToNumber p - periodToNumber period).natAbs <
         (periodToNumber n - periodToNumber period).natAbs then some p
      else some n) none

/-- convert(amount, fromCurrency, toCurrency, period).  The same-currency
    early return comes first, before any rate-table access; otherwise the
    period rates are looked up, falling back to the chronologically nearest
    period that has rates (the source recursion is modelled with fuel;
    the fallback recursion in the source runs at most one level because
    the nearest period is a key of the table). -/
def convert (rates : Rates) : Nat → ℚ → String → String → String → Except String ℚ
  | fuel, amount, fromCurrency, toCurrency, period =>
    if fromCurrency = toCurrency then .ok amount
    else
      match lookupA rates period with
      | some periodRates => convertAt periodRates amount fromCurrency toCurrency
      | none =>
        match nearestPeriod rates period with
        | none => .error "No exchange rate found for period"
        | some np =>
          match fuel with
          | 0 => .error "fuel exhausted"
          | fuel1 + 1 => convert rates fuel1 amount fromCurrency toCurrency np

end CurrencyConverter

-- ===========================================================================
-- COST RECORDS AND RULE APPLICATION (class CostCalculator)
-- ===========================================================================

/-- One entry of the pathCosts list built while walking a transfer path. -/
structure PathStep where
  entity : String
  cost : ℚ
  markup : Option ℚ := none
  deriving Repr, DecidableEq

/-- A cost record (the per-(product, entity, period) breakdown object).
    The componentBreakdown diagnostic list is omitted: no claim reads it.
    sourceEntity and transferPath are present only on transfer-priced
    records (JS: absent properties), modelled with Option/default. -/
structure CostRecord where
  directMaterial : ℚ := 0
  directLabor : ℚ := 0
  scrapAdjustment : ℚ := 0
  laborBurden : ℚ := 0
  factoryOverhead : ℚ := 0
  rndAmortization : ℚ := 0
  royalty : ℚ := 0
  managementFee : ℚ := 0
  interCompanyMarkup : ℚ := 0
  customsDuties : ℚ := 0
  totalCost : ℚ := 0
  sourceEntity : Option String := none
  transferPath : List PathStep := []
  deriving Repr, DecidableEq

/-- The sum of the ten itemized fields of a cost record. -/
def itemizedSum (c : CostRecord) : ℚ :=
  c.directMaterial + c.directLabor + c.scrapAdjustment + c.laborBurden +
  c.factoryOverhead + c.rndAmortization + c.royalty + c.managementFee +
  c.interCompanyMarkup + c.customsDuties

/-- The §3 invariant: totalCost equals the sum of the itemized fields. -/
def TotalInv (c : CostRecord) : Prop := c.totalCost = itemizedSum c

/-- The breakdown record constructed at the end of calculateBaseCost
    (index.js lines 793-808), given the two direct-cost accumulators that
    the preceding component loop computed. -/
def calculateBaseCostBreakdown (directMaterialCost directLaborCost : ℚ) : CostRecord :=
  { directMaterial := directMaterialCost
    directLabor := directLaborCost
    scrapAdjustment := 0
    laborBurden := 0
    factoryOverhead := 0
    rndAmortization := 0
    royalty := 0
    managementFee := 0
    interCompanyMarkup := 0
    customsDuties := 0
    totalCost := directMaterialCost + directLaborCost }

/-- A transfer route (config.transferRoutes entry).  JS field names from/to
    are Lean keywords, rendered source/dest. -/
structure Route where
  source : String
  dest : String
  itemTypes : List String
  markupType : String
  markupValue : ℚ
  deriving Repr, DecidableEq

/-- An allocation rule.  The source stores type-specific parameters on one
    plain object; absent parameters default like JS undefined-tolerant
    reads do. -/
structure Rule where
  id : String
  type : String
  dependencies : List String := []
  burdenRate : ℚ := 0
  baseRules : List String := []
  percentage : ℚ := 0
  poolId : String := ""
  lookbackPeriods : Nat := 1
  transferType : String := ""
  deriving Repr, DecidableEq

/-- The calculator context read by applyRule for one call site
    (productId, entityId, period, targetCurrency fixed): the transfer
    routes, the cost pools (poolId -> period -> (amount, currency)), the
    production-volume lookups, and the currency converter (an external
    collaborator per the spec, passed as a function). -/
structure RuleCtx where
  entityId : String
  period : String
  targetCurrency : String
  transferRoutes : List Route
  costPools : List (String × List (String × (ℚ × String)))
  totalVolume : Nat → ℚ
  productVolume : ℚ
  convert : ℚ → String → String → String → ℚ

/-- One step of the transfer-price royalty loop of applyRule: for a route
    with markupType revenue-percent, add cost.totalCost * markupValue to
    both the royalty field and totalCost, and to the rule output. -/
def royaltyStep (acc : CostRecord × ℚ) (route : Route) : CostRecord × ℚ :=
  if route.markupType = "revenue-percent" then
    let c := acc.1
    let roy := c.totalCost * route.markupValue
    ({ c with royalty := c.royalty + roy, totalCost := c.totalCost + roy }, acc.2 + roy)
  else acc

/-- One step of the transfer-price mgmt-fee loop of applyRule. -/
def mgmtFeeStep (acc : CostRecord × ℚ) (route : Route) : CostRecord × ℚ :=
  if route.markupType = "revenue-percent" then
    let c := acc.1
    let fee := c.totalCost * route.markupValue
    ({ c with managementFee := c.managementFee + fee, totalCost := c.totalCost + fee }, acc.2 + fee)
  else acc

/-- The labor-burden case of applyRule: apply the burden rate to
    directLabor when positive, writing laborBurden and adding to
    totalCost. -/
def laborBurdenBranch (rule : Rule) (cost : CostRecord) : CostRecord × ℚ :=
  if cost.directLabor > 0 then
    let burden := cost.directLabor * rule.burdenRate
    ({ cost with laborBurden := burden, totalCost := cost.totalCost + burden }, burden)
  else (cost, 0)

/-- The percentage-of-base case of applyRule: sum the named prior-rule
    bases, apply the percentage, write factoryOverhead and add to
    totalCost. -/
def percentageOfBaseBranch (rule : Rule) (cost : CostRecord) : CostRecord × ℚ :=
  let baseAmount := rule.baseRules.foldl (fun sum baseRuleId =>
    if baseRuleId = "RULE-002" then sum + cost.directMaterial + cost.scrapAdjustment
    else if baseRuleId = "RULE-003" then sum + cost.directLabor + cost.laborBurden
    else sum) 0
  let overhead := baseAmount * rule.percentage
  ({ cost with factoryOverhead := overhead, totalCost := cost.totalCost + overhead },
   overhead)

/-- The per-unit-allocation case of applyRule: allocate the cost pool by
    volume share, writing rndAmortization and adding to totalCost. -/
def perUnitAllocationBranch (ctx : RuleCtx) (rule : Rule) (cost : CostRecord) :
    CostRecord × ℚ :=
  match lookupA ctx.costPools rule.poolId with
  | none => (cost, 0)
  | some poolPeriods =>
    let totalVolume := ctx.totalVolume rule.lookbackPeriods
    let productVolume := ctx.productVolume
    if totalVolume > 0 ∧ productVolume > 0 then
      let poolAmount :=
        match lookupA poolPeriods ctx.period with
        | some ac => ctx.convert ac.1 ac.2 ctx.targetCurrency ctx.period
        | none => ctx.convert 0 "USD" ctx.targetCurrency ctx.period
      let allocation := poolAmount / totalVolume * (productVolume / productVolume)
      ({ cost with rndAmortization := allocation,
                   totalCost := cost.totalCost + allocation }, allocation)
    else (cost, 0)

/-- The transfer-price case of applyRule: fold the matching royalty or
    mgmt-fee routes over the record. -/
def transferPriceBranch (ctx : RuleCtx) (rule : Rule) (cost : CostRecord) :
    CostRecord × ℚ :=
  if rule.transferType = "royalty" then
    let royaltyRoutes := ctx.transferRoutes.filter (fun r =>
      decide (r.dest = ctx.entityId ∧ "royalty" ∈ r.itemTypes))
    royaltyRoutes.foldl royaltyStep (cost, 0)
  else if rule.transferType = "mgmt-fee" then
    let mgmtRoutes := ctx.transferRoutes.filter (fun r =>
      decide (r.dest = ctx.entityId ∧ "mgmt-fee" ∈ r.itemTypes))
    mgmtRoutes.foldl mgmtFeeStep (cost, 0)
  else (cost, 0)

/-- applyRule(rule, productId, entityId, period, targetCurrency): dispatch
    on rule.type (index.js lines 828-939), mutating the cost record and
    computing ruleOutput.  Returns (updated record, ruleOutput).  The
    switch cases are split into the branch functions above; sum-components
    and multiply compute at most a rule output, and the conditional,
    weighted-average, variance-calculation and unknown cases fall through
    without mutation. -/
def applyRule (ctx : RuleCtx) (rule : Rule) (cost : CostRecord) : CostRecord × ℚ :=
  if rule.type = "sum-components" then
    (cost, cost.directMaterial + cost.directLabor)
  else if rule.type = "multiply" then
    (cost, 0)
  else if rule.type = "labor-burden" then
    laborBurdenBranch rule cost
  else if rule.type = "percentage-of-base" then
    percentageOfBaseBranch rule cost
  else if rule.type = "per-unit-allocation" then
    perUnitAllocationBranch ctx rule cost
  else if rule.type = "transfer-price" then
    transferPriceBranch ctx rule cost
  else (cost, 0)

/-- Phase-2 execution on one cost record: applyRule folded over a list of
    rules in execution order (executeRule's inner call sequence for one
    (productId, entityId) pair). -/
def execRules (ctx : RuleCtx) (rules : List Rule) (cost : CostRecord) : CostRecord :=
  rules.foldl (fun c r => (applyRule ctx r c).1) cost

/-- The breakdown record that calculateTransferPrice stores on the
    destination distribution entity (index.js lines 998-1012). -/
def transferBreakdown (sourceCost : CostRecord) (bestCost : ℚ)
    (bestSourceEntity : String) (bestPath : List PathStep) : CostRecord :=
  { directMaterial := sourceCost.directMaterial
    directLabor := sourceCost.directLabor
    scrapAdjustment := sourceCost.scrapAdjustment
    laborBurden := sourceCost.laborBurden
    factoryOverhead := sourceCost.factoryOverhead
    rndAmortization := sourceCost.rndAmortization
    royalty := sourceCost.royalty
    managementFee := sourceCost.managementFee
    interCompanyMarkup := bestCost - sourceCost.totalCost
    customsDuties := 0
    totalCost := bestCost
    sourceEntity := some bestSourceEntity
    transferPath := bestPath }

/-- The number of rules of a given type in a rule list. -/
def countType (rules : List Rule) (t : String) : Nat :=
  rules.countP (fun r => decide (r.type = t))

-- ===========================================================================
-- C1 SUPPORT: invariant preservation lemmas
-- ===========================================================================

theorem royaltyFold_inv (routes : List Route) :
    ∀ acc : CostRecord × ℚ, TotalInv acc.1 →
      TotalInv (routes.foldl royaltyStep acc).1 := by
  induction routes with
  | nil => intro acc h; exact h
  | cons route rest ih =>
    intro acc h
    refine ih _ ?_
    unfold royaltyStep
    by_cases hm : route.markupType = "revenue-percent"
    · rw [if_pos hm]
      unfold TotalInv itemizedSum at h ⊢
      simp only
      rw [h]; ring
    · rw [if_neg hm]; exact h

theorem mgmtFold_inv (routes : List Route) :
    ∀ acc : CostRecord × ℚ, TotalInv acc.1 →
      TotalInv (routes.foldl mgmtFeeStep acc).1 := by
  induction routes with
  | nil => intro acc h; exact h
  | cons route rest ih =>
    intro acc h
    refine ih _ ?_
    unfold mgmtFeeStep
    by_cases hm : route.markupType = "revenue-percent"
    · rw [if_pos hm]
      unfold TotalInv itemizedSum at h ⊢
      simp only
      rw [h]; ring
    · rw [if_neg hm]; exact h

/-- The fields of the record that neither transfer-price loop touches. -/
theorem royaltyFold_fields (routes : List Route) :
    ∀ acc : CostRecord × ℚ,
      (routes.foldl royaltyStep acc).1.laborBurden = acc.1.laborBurden ∧
      (routes.foldl royaltyStep acc).1.factoryOverhead = acc.1.factoryOverhead ∧
      (routes.foldl royaltyStep acc).1.rndAmortization = acc.1.rndAmortization ∧
      (routes.foldl royaltyStep acc).1.interCompanyMarkup = acc.1.interCompanyMarkup ∧
      (routes.foldl royaltyStep acc).1.customsDuties = acc.1.customsDuties := by
  induction routes with
  | nil => intro acc; exact ⟨rfl, rfl, rfl, rfl, rfl⟩
  | cons route rest ih =>
    intro acc
    obtain ⟨h1, h2, h3, h4, h5⟩ := ih (royaltyStep acc route)
    unfold royaltyStep at h1 h2 h3 h4 h5
    by_cases hm : route.markupType = "revenue-percent" <;>
      simp only [hm, if_pos, if_neg, if_true, if_false, List.foldl_cons] at h1 h2 h3 h4 h5 ⊢ <;>
      · unfold royaltyStep
        simp only [hm, if_true, if_false, reduceIte]
        exact ⟨h1, h2, h3, h4, h5⟩

theorem mgmtFold_fields (routes : List Route) :
    ∀ acc : CostRecord × ℚ,
      (routes.foldl mgmtFeeStep acc).1.laborBurden = acc.1.laborBurden ∧
      (routes.foldl mgmtFeeStep acc).1.factoryOverhead = acc.1.factoryOverhead ∧
      (routes.foldl mgmtFeeStep acc).1.rndAmortization = acc.1.rndAmortization ∧
      (routes.foldl mgmtFeeStep acc).1.interCompanyMarkup = acc.1.interCompanyMarkup ∧
      (routes.foldl mgmtFeeStep acc).1.customsDuties = acc.1.customsDuties := by
  induction routes with
  | nil => intro acc; exact ⟨rfl, rfl, rfl, rfl, rfl⟩
  | cons route rest ih =>
    intro acc
    obtain ⟨h1, h2, h3, h4, h5⟩ := ih (mgmtFeeStep acc route)
    unfold mgmtFeeStep at h1 h2 h3 h4 h5
    by_cases hm : route.markupType = "revenue-percent" <;>
      simp only [hm, if_pos, if_neg, if_true, if_false, List.foldl_cons] at h1 h2 h3 h4 h5 ⊢ <;>
      · unfold mgmtFeeStep
        simp only [hm, if_true, if_false, reduceIte]
        exact ⟨h1, h2, h3, h4, h5⟩

theorem laborBurdenBranch_inv (rule : Rule) (c : CostRecord)
    (h : TotalInv c) (hz : c.laborBurden = 0) :
    TotalInv (laborBurdenBranch rule c).1 := by
  unfold laborBurdenBranch
  split_ifs with hd
  · unfold TotalInv itemizedSum at h ⊢
    simp only
    rw [h, hz]; ring
  · exact h

/-- laborBurdenBranch touches only laborBurden and totalCost. -/
theorem laborBurdenBranch_fields (rule : Rule) (c : CostRecord) :
    (laborBurdenBranch rule c).1.factoryOverhead = c.factoryOverhead ∧
    (laborBurdenBranch rule c).1.rndAmortization = c.rndAmortization ∧
    (laborBurdenBranch rule c).1.interCompanyMarkup = c.interCompanyMarkup ∧
    (laborBurdenBranch rule c).1.customsDuties = c.customsDuties := by
  unfold laborBurdenBranch
  split_ifs with hd <;> exact ⟨rfl, rfl, rfl, rfl⟩

theorem percentageOfBaseBranch_inv (rule : Rule) (c : CostRecord)
    (h : TotalInv c) (hz : c.factoryOverhead = 0) :
    TotalInv (percentageOfBaseBranch rule c).1 := by
  unfold percentageOfBaseBranch
  unfold TotalInv itemizedSum at h ⊢
  simp only
  rw [h, hz]; ring

/-- percentageOfBaseBranch touches only factoryOverhead and totalCost. -/
theorem percentageOfBaseBranch_fields (rule : Rule) (c : CostRecord) :
    (percentageOfBaseBranch rule c).1.laborBurden = c.laborBurden ∧
    (percentageOfBaseBranch rule c).1.rndAmortization = c.rndAmortization ∧
    (percentageOfBaseBranch rule c).1.interCompanyMarkup = c.interCompanyMarkup ∧
    (percentageOfBaseBranch rule c).1.customsDuties = c.customsDuties :=
  ⟨rfl, rfl, rfl, rfl⟩

theorem perUnitAllocationBranch_inv (ctx : RuleCtx) (rule : Rule) (c : CostRecord)
    (h : TotalInv c) (hz : c.rndAmortization = 0) :
    TotalInv (perUnitAllocationBranch ctx rule c).1 := by
  unfold perUnitAllocationBranch
  cases hp : lookupA ctx.costPools rule.poolId with
  | none => exact h
  | some poolPeriods =>
    simp only
    split_ifs with hv
    · unfold TotalInv itemizedSum at h ⊢
      simp only
      rw [h, hz]; ring
    · exact h

/-- perUnitAllocationBranch touches only rndAmortization and totalCost. -/
theorem perUnitAllocationBranch_fields (ctx : RuleCtx) (rule : Rule) (c : CostRecord) :
    (perUnitAllocationBranch ctx rule c).1.laborBurden = c.laborBurden ∧
    (perUnitAllocationBranch ctx rule c).1.factoryOverhead = c.factoryOverhead ∧
    (perUnitAllocationBranch ctx rule c).1.interCompanyMarkup = c.interCompanyMarkup ∧
    (perUnitAllocationBranch ctx rule c).1.customsDuties = c.customsDuties := by
  unfold perUnitAllocationBranch
  cases hp : lookupA ctx.costPools rule.poolId with
  | none => exact ⟨rfl, rfl, rfl, rfl⟩
  | some poolPeriods =>
    simp only
    split_ifs with hv <;> exact ⟨rfl, rfl, rfl, rfl⟩

theorem transferPriceBranch_inv (ctx : RuleCtx) (rule : Rule) (c : CostRecord)
    (h : TotalInv c) : TotalInv (transferPriceBranch ctx rule c).1 := by
  unfold transferPriceBranch
  split_ifs with h1 h2
  · exact royaltyFold_inv _ _ h
  · exact mgmtFold_inv _ _ h
  · exact h

/-- transferPriceBranch touches only royalty, managementFee and
    totalCost. -/
theorem transferPriceBranch_fields (ctx : RuleCtx) (rule : Rule) (c : CostRecord) :
    (transferPriceBranch ctx rule c).1.laborBurden = c.laborBurden ∧
    (transferPriceBranch ctx rule c).1.factoryOverhead = c.factoryOverhead ∧
    (transferPriceBranch ctx rule c).1.rndAmortization = c.rndAmortization ∧
    (transferPriceBranch ctx rule c).1.interCompanyMarkup = c.interCompanyMarkup ∧
    (transferPriceBranch ctx rule c).1.customsDuties = c.customsDuties := by
  unfold transferPriceBranch
  split_ifs with h1 h2
  · exact royaltyFold_fields _ _
  · exact mgmtFold_fields _ _
  · exact ⟨rfl, rfl, rfl, rfl, rfl⟩

/-- applyRule preserves the §3 invariant, provided the field that an
    assigning branch overwrites (laborBurden, factoryOverhead,
    rndAmortization) is still zero when that branch runs. -/
theorem applyRule_inv (ctx : RuleCtx) (rule : Rule) (c : CostRecord)
    (h : TotalInv c)
    (hlb : rule.type = "labor-burden" → c.laborBurden = 0)
    (hfo : rule.type = "percentage-of-base" → c.factoryOverhead = 0)
    (hra : rule.type = "per-unit-allocation" → c.rndAmortization = 0) :
    TotalInv (applyRule ctx rule c).1 := by
  unfold applyRule
  split_ifs with h1 h2 h3 h4 h5 h6
  · exact h
  · exact h
  · exact laborBurdenBranch_inv rule c h (hlb h3)
  · exact percentageOfBaseBranch_inv rule c h (hfo h4)
  · exact perUnitAllocationBranch_inv ctx rule c h (hra h5)
  · exact transferPriceBranch_inv ctx rule c h
  · exact h

/-- applyRule on a rule that is not of type labor-burden leaves
    laborBurden unchanged. -/
theorem applyRule_laborBurden (ctx : RuleCtx) (rule : Rule) (c : CostRecord)
    (hne : rule.type ≠ "labor-burden") :
    (applyRule ctx rule c).1.laborBurden = c.laborBurden := by
  unfold applyRule
  split_ifs with h1 h2 h3 h4 h5
  · rfl
  · rfl
  · exact (percentageOfBaseBranch_fields rule c).1
  · exact (perUnitAllocationBranch_fields ctx rule c).1
  · exact (transferPriceBranch_fields ctx rule c).1
  · rfl

/-- applyRule on a rule that is not of type percentage-of-base leaves
    factoryOverhead unchanged. -/
theorem applyRule_factoryOverhead (ctx : RuleCtx) (rule : Rule) (c : CostRecord)
    (hne : rule.type ≠ "percentage-of-base") :
    (applyRule ctx rule c).1.factoryOverhead = c.factoryOverhead := by
  unfold applyRule
  split_ifs with h1 h2 h3 h4 h5
  · rfl
  · rfl
  · exact (laborBurdenBranch_fields rule c).1
  · exact (perUnitAllocationBranch_fields ctx rule c).2.1
  · exact (transferPriceBranch_fields ctx rule c).2.1
  · rfl

/-- applyRule on a rule that is not of type per-unit-allocation leaves
    rndAmortization unchanged. -/
theorem applyRule_rndAmortization (ctx : RuleCtx) (rule : Rule) (c : CostRecord)
    (hne : rule.type ≠ "per-unit-allocation") :
    (applyRule ctx rule c).1.rndAmortization = c.rndAmortization := by
  unfold applyRule
  split_ifs with h1 h2 h3 h4 h5
  · rfl
  · rfl
  · exact (laborBurdenBranch_fields rule c).2.1
  · exact (percentageOfBaseBranch_fields rule c).2.1
  · exact (transferPriceBranch_fields ctx rule c).2.2.1
  · rfl

/-- No applyRule branch touches interCompanyMarkup or customsDuties. -/
theorem applyRule_icm_cd (ctx : RuleCtx) (rule : Rule) (c : CostRecord) :
    (applyRule ctx rule c).1.interCompanyMarkup = c.interCompanyMarkup ∧
    (applyRule ctx rule c).1.customsDuties = c.customsDuties := by
  unfold applyRule
  split_ifs with h1 h2 h3 h4 h5 h6
  · exact ⟨rfl, rfl⟩
  · exact ⟨rfl, rfl⟩
  · exact ⟨(laborBurdenBranch_fields rule c).2.2.1,
           (laborBurdenBranch_fields rule c).2.2.2⟩
  · exact ⟨(percentageOfBaseBranch_fields rule c).2.2.1,
           (percentageOfBaseBranch_fields rule c).2.2.2⟩
  · exact ⟨(perUnitAllocationBranch_fields ctx rule c).2.2.1,
           (perUnitAllocationBranch_fields ctx rule c).2.2.2⟩
  · exact ⟨(transferPriceBranch_fields ctx rule c).2.2.2.1,
           (transferPriceBranch_fields ctx rule c).2.2.2.2⟩
  · exact ⟨rfl, rfl⟩

theorem countType_cons (r : Rule) (rs : List Rule) (t : String) :
    countType (r :: rs) t = countType rs t + (if r.type = t then 1 else 0) := by
  unfold countType
  rw [List.countP_cons]
  by_cases h : r.type = t <;> simp [h]

theorem countType_append (l1 l2 : List Rule) (t : String) :
    countType (l1 ++ l2) t = countType l1 t + countType l2 t := by
  unfold countType
  exact List.countP_append _ _ _

/-- Folding applyRule over a rule list in which each assigning rule type
    (labor-burden, percentage-of-base, per-unit-allocation) occurs at most
    once preserves the §3 invariant, and leaves interCompanyMarkup and
    customsDuties untouched. -/
theorem execRules_inv (ctx : RuleCtx) :
    ∀ (rules : List Rule) (c : CostRecord),
    TotalInv c →
    (1 ≤ countType rules "labor-burden" → c.laborBurden = 0) →
    (1 ≤ countType rules "percentage-of-base" → c.factoryOverhead = 0) →
    (1 ≤ countType rules "per-unit-allocation" → c.rndAmortization = 0) →
    countType rules "labor-burden" ≤ 1 →
    countType rules "percentage-of-base" ≤ 1 →
    countType rules "per-unit-allocation" ≤ 1 →
    TotalInv (execRules ctx rules c) ∧
    (execRules ctx rules c).interCompanyMarkup = c.interCompanyMarkup ∧
    (execRules ctx rules c).customsDuties = c.customsDuties := by
  intro rules
  induction rules with
  | nil => intro c h _ _ _ _ _ _; exact ⟨h, rfl, rfl⟩
  | cons r rs ih =>
    intro c h hlb hfo hra blb bfo bra
    rw [countType_cons] at hlb blb
    rw [countType_cons] at hfo bfo
    rw [countType_cons] at hra bra
    have hinv1 : TotalInv (applyRule ctx r c).1 :=
      applyRule_inv ctx r c h
        (fun hr => hlb (by rw [if_pos hr]; omega))
        (fun hr => hfo (by rw [if_pos hr]; omega))
        (fun hr => hra (by rw [if_pos hr]; omega))
    have hlb1 : 1 ≤ countType rs "labor-burden" → (applyRule ctx r c).1.laborBurden = 0 := by
      intro h1
      have hne : r.type ≠ "labor-burden" := by
        intro hr; rw [if_pos hr] at blb; omega
      rw [if_neg hne] at hlb blb
      rw [applyRule_laborBurden ctx r c hne]
      exact hlb (by omega)
    have hfo1 : 1 ≤ countType rs "percentage-of-base" →
        (applyRule ctx r c).1.factoryOverhead = 0 := by
      intro h1
      have hne : r.type ≠ "percentage-of-base" := by
        intro hr; rw [if_pos hr] at bfo; omega
      rw [if_neg hne] at hfo bfo
      rw [applyRule_factoryOverhead ctx r c hne]
      exact hfo (by omega)
    have hra1 : 1 ≤ countType rs "per-unit-allocation" →
        (applyRule ctx r c).1.rndAmortization = 0 := by
      intro h1
      have hne : r.type ≠ "per-unit-allocation" := by
        intro hr; rw [if_pos hr] at bra; omega
      rw [if_neg hne] at hra bra
      rw [applyRule_rndAmortization ctx r c hne]
      exact hra (by omega)
    obtain ⟨ih1, ih2, ih3⟩ := ih (applyRule ctx r c).1 hinv1 hlb1 hfo1 hra1
      (by omega) (by omega) (by omega)
    refine ⟨ih1, ?_, ?_⟩
    · exact ih2.trans (applyRule_icm_cd ctx r c).1
    · exact ih3.trans (applyRule_icm_cd ctx r c).2

/-- The transfer-price breakdown built by calculateTransferPrice satisfies
    the §3 invariant whenever the source record does and carries no
    inter-company markup or customs duties of its own (as is the case for
    every manufacturing-entity record produced by phases 1-2). -/
theorem transferBreakdown_inv (src : CostRecord) (h : TotalInv src)
    (hicm : src.interCompanyMarkup = 0) (hcd : src.customsDuties = 0)
    (bestCost : ℚ) (e : String) (p : List PathStep) :
    TotalInv (transferBreakdown src bestCost e p) := by
  unfold transferBreakdown
  unfold TotalInv itemizedSum at h ⊢
  simp only
  rw [h, hicm, hcd]
  ring

-- ===========================================================================
-- CLAIM THEOREMS (C7, C10)
-- ===========================================================================

/-- The dependency map of claim C7: registrations forming the chain
    A -> B -> C. -/
def c7deps : CostState.Deps :=
  CostState.addDependency (CostState.addDependency [] "A" "B") "B" "C"

/-- C7: after dependency registrations forming the chain A→B→C,
    markDirty("A") marks exactly A, B and C dirty (the key plus all
    transitively registered dependents); getDirtyKeys then returns exactly
    that set, clearDirty empties it, and a second drain without new
    dirtying returns the empty set. -/
theorem c7_markDirty_chain_drains_once :
    CostState.markDirty c7deps 10 [] "A" = ["A", "B", "C"] ∧
    CostState.getDirtyKeys (CostState.markDirty c7deps 10 [] "A") = ["A", "B", "C"] ∧
    CostState.getDirtyKeys
      (CostState.clearDirty (CostState.markDirty c7deps 10 [] "A")) = [] := by
  refine ⟨?_, ?_, ?_⟩ <;> rfl

/-- C10: same-currency conversion returns the amount unchanged without
    consulting the exchange-rate table: this holds for every rate table
    (including one with no entries for the period or currency), every
    amount, every period and every fuel value, because the same-currency
    early return precedes every table access. -/
theorem c10_convert_same_currency (rates : CurrencyConverter.Rates)
    (fuel : Nat) (amount : ℚ) (c period : String) :
    CurrencyConverter.convert rates fuel amount c c period = .ok amount := by
  simp [CurrencyConverter.convert]

-- ===========================================================================
-- CLAIM THEOREMS (C1)
-- ===========================================================================

/-- A rule application context with no routes, pools or volumes, for the
    concrete C1 instances. -/
def c1ctx : RuleCtx :=
  { entityId := "MFG-X", period := "2024-Q4", targetCurrency := "USD",
    transferRoutes := [], costPools := [], totalVolume := fun _ => 0,
    productVolume := 0, convert := fun a _ _ _ => a }

/-- A factory-overhead rule: 100 percent of the material base. -/
def c1ruleA : Rule :=
  { id := "OVH-A", type := "percentage-of-base", baseRules := ["RULE-002"],
    percentage := 1 }

/-- A second, distinct rule of the same assigning type. -/
def c1ruleB : Rule :=
  { id := "OVH-B", type := "percentage-of-base", baseRules := ["RULE-002"],
    percentage := 1 }

/-- C1 counterexample: the claim fails as stated when the execution order
    contains two rules of the same assigning type.  With a base record of
    directMaterial 1 and two percentage-of-base rules at 100 percent, the
    second application overwrites factoryOverhead with the same value 1
    but still adds 1 to totalCost (the branch assigns the named field and
    increments totalCost instead of updating both consistently), giving
    totalCost 3 against an itemized sum of 2. -/
theorem c1_totalCost_counterexample :
    ¬ TotalInv (execRules c1ctx [c1ruleA, c1ruleB] (calculateBaseCostBreakdown 1 0)) := by
  simp only [TotalInv, itemizedSum, execRules, List.foldl_cons, List.foldl_nil,
    applyRule, percentageOfBaseBranch, laborBurdenBranch, c1ruleA, c1ruleB, c1ctx,
    calculateBaseCostBreakdown]
  simp

/-- C1 (amended): for every cost record created by calculateBaseCost and
    then mutated by applyRule for the rules of the engine's execution
    order — provided each assigning rule type (labor-burden,
    percentage-of-base, per-unit-allocation) occurs at most once in that
    order, which is what the overwrite-plus-increment counterexample
    forces — totalCost equals the sum of the ten itemized fields after
    the base-cost construction and after every rule application, and the
    breakdown stored by calculateTransferPrice for a distribution entity
    (built from any such record) satisfies the same invariant. -/
theorem c1_totalCost_invariant (ctx : RuleCtx) (dm dl : ℚ) (rules : List Rule)
    (blb : countType rules "labor-burden" ≤ 1)
    (bfo : countType rules "percentage-of-base" ≤ 1)
    (bra : countType rules "per-unit-allocation" ≤ 1) :
    ∀ pre post : List Rule, rules = pre ++ post →
      TotalInv (execRules ctx pre (calculateBaseCostBreakdown dm dl)) ∧
      ∀ (bestCost : ℚ) (src : String) (path : List PathStep),
        TotalInv (transferBreakdown
          (execRules ctx pre (calculateBaseCostBreakdown dm dl)) bestCost src path) := by
  intro pre post hsplit
  subst hsplit
  rw [countType_append] at blb bfo bra
  have hbase : TotalInv (calculateBaseCostBreakdown dm dl) := by
    unfold TotalInv itemizedSum calculateBaseCostBreakdown
    simp only
    ring
  obtain ⟨h1, h2, h3⟩ := execRules_inv ctx pre (calculateBaseCostBreakdown dm dl)
    hbase (fun _ => rfl) (fun _ => rfl) (fun _ => rfl)
    (by omega) (by omega) (by omega)
  refine ⟨h1, fun bestCost src path => ?_⟩
  exact transferBreakdown_inv _ h1 (h2.trans rfl) (h3.trans rfl) bestCost src path

/-- C1 witness: the amended invariant instantiated on a concrete run with
    one percentage-of-base rule over a base record with directMaterial 1. -/
theorem c1_totalCost_invariant_witness :
    TotalInv (execRules c1ctx [c1ruleA] (calculateBaseCostBreakdown 1 0)) :=
  (c1_totalCost_invariant c1ctx 1 0 [c1ruleA]
    (by decide) (by decide) (by decide) [c1ruleA] [] rfl).1

-- ===========================================================================
-- CYCLE RESOLUTION (CostCalculator.resolveRoyaltyCycle) and C9
-- ===========================================================================

/-- The structured record resolveRoyaltyCycle returns. -/
structure ResolveResult where
  converged : Bool
  iterations : Nat
  finalCost : ℚ
  deriving Repr, DecidableEq

/-- One iteration body of resolveRoyaltyCycle: recalculate the base cost
    (overwriting the record with a fresh breakdown built from the
    unchanged direct-cost inputs), then re-apply only the royalty-type
    transfer-price rules of the execution order. -/
def royaltyCycleStep (ctx : RuleCtx) (rules : List Rule) (dm dl : ℚ) : CostRecord :=
  rules.foldl (fun c rule =>
    if rule.type = "transfer-price" ∧ rule.transferType = "royalty" then
      (applyRule ctx rule c).1
    else c) (calculateBaseCostBreakdown dm dl)

/-- JS: this.costState.getCost(...)?.totalCost || 0. -/
def readTotalCost (st : Option CostRecord) : ℚ :=
  match st with
  | some c => c.totalCost
  | none => 0

/-- The while loop of resolveRoyaltyCycle.  Fuel counts the remaining
    allowed iterations (maxIterations - iterations), so the guard
    iterations < maxIterations is the fuel pattern.  Returns
    (prevCost, currentCost, iterations, state). -/
def resolveRoyaltyLoop (ctx : RuleCtx) (rules : List Rule) (dm dl tolerance : ℚ) :
    Nat → ℚ → ℚ → Nat → Option CostRecord → ℚ × ℚ × Nat × Option CostRecord
  | 0, prevCost, currentCost, iterations, st => (prevCost, currentCost, iterations, st)
  | fuel + 1, prevCost, currentCost, iterations, st =>
    if |currentCost - prevCost| > tolerance then
      resolveRoyaltyLoop ctx rules dm dl tolerance fuel
        currentCost (readTotalCost (some (royaltyCycleStep ctx rules dm dl)))
        (iterations + 1) (some (royaltyCycleStep ctx rules dm dl))
    else (prevCost, currentCost, iterations, st)

/-- resolveRoyaltyCycle(productId, entityId, period, targetCurrency,
    maxIterations = 10, tolerance = 0.01): fixed-point iteration over the
    base-cost-plus-royalty-rules recompute loop for one cost key.
    Total (never throws): non-convergence is reported through the
    converged field of the returned record. -/
def resolveRoyaltyCycle (ctx : RuleCtx) (rules : List Rule) (dm dl : ℚ)
    (initial : Option CostRecord) (maxIterations : Nat) (tolerance : ℚ) :
    ResolveResult × Option CostRecord :=
  let r := resolveRoyaltyLoop ctx rules dm dl tolerance maxIterations
    0 (readTotalCost initial) 0 initial
  ({ converged := decide (|r.2.1 - r.1| ≤ tolerance),
     iterations := r.2.2.1,
     finalCost := r.2.1 }, r.2.2.2)

theorem resolveRoyaltyLoop_iterations (ctx : RuleCtx) (rules : List Rule)
    (dm dl tolerance : ℚ) :
    ∀ (fuel : Nat) (p c : ℚ) (i : Nat) (st : Option CostRecord),
      (resolveRoyaltyLoop ctx rules dm dl tolerance fuel p c i st).2.2.1 ≤ i + fuel := by
  intro fuel
  induction fuel with
  | zero => intro p c i st; simp [resolveRoyaltyLoop]
  | succ n ih =>
    intro p c i st
    unfold resolveRoyaltyLoop
    split_ifs with hc
    · have := ih c (readTotalCost (some (royaltyCycleStep ctx rules dm dl))) (i + 1)
        (some (royaltyCycleStep ctx rules dm dl))
      omega
    · simp

/-- At loop exit, either the fuel (iteration budget) is exhausted, or the
    final iteration-to-iteration change met the tolerance. -/
theorem resolveRoyaltyLoop_exit (ctx : RuleCtx) (rules : List Rule)
    (dm dl tolerance : ℚ) :
    ∀ (fuel : Nat) (p c : ℚ) (i : Nat) (st : Option CostRecord),
      (resolveRoyaltyLoop ctx rules dm dl tolerance fuel p c i st).2.2.1 = i + fuel ∨
      |(resolveRoyaltyLoop ctx rules dm dl tolerance fuel p c i st).2.1 -
        (resolveRoyaltyLoop ctx rules dm dl tolerance fuel p c i st).1| ≤ tolerance := by
  intro fuel
  induction fuel with
  | zero => intro p c i st; left; simp [resolveRoyaltyLoop]
  | succ n ih =>
    intro p c i st
    unfold resolveRoyaltyLoop
    split_ifs with hc
    · rcases ih c (readTotalCost (some (royaltyCycleStep ctx rules dm dl))) (i + 1)
        (some (royaltyCycleStep ctx rules dm dl)) with h | h
      · left; rw [h]; omega
      · right; exact h
    · right
      simp only
      linarith [not_lt.mp hc]

/-- C9: resolveRoyaltyCycle always returns a structured record
    (converged, iterations, finalCost) — it is a total function, never an
    exception — with iterations ≤ maxIterations; converged is true exactly
    when the final iteration-to-iteration cost change (currentCost minus
    prevCost at loop exit) is within tolerance; and an unconverged result
    can only arise from exhausting the iteration cap (converged = false
    forces iterations = maxIterations). -/
theorem c9_resolveRoyaltyCycle_structured (ctx : RuleCtx) (rules : List Rule)
    (dm dl : ℚ) (initial : Option CostRecord) (maxIterations : Nat) (tolerance : ℚ) :
    (resolveRoyaltyCycle ctx rules dm dl initial maxIterations tolerance).1.iterations
      ≤ maxIterations ∧
    ((resolveRoyaltyCycle ctx rules dm dl initial maxIterations tolerance).1.converged = true ↔
      |(resolveRoyaltyLoop ctx rules dm dl tolerance maxIterations
          0 (readTotalCost initial) 0 initial).2.1 -
       (resolveRoyaltyLoop ctx rules dm dl tolerance maxIterations
          0 (readTotalCost initial) 0 initial).1| ≤ tolerance) ∧
    ((resolveRoyaltyCycle ctx rules dm dl initial maxIterations tolerance).1.converged = false →
      (resolveRoyaltyCycle ctx rules dm dl initial maxIterations tolerance).1.iterations
        = maxIterations) := by
  refine ⟨?_, ?_, ?_⟩
  · have := resolveRoyaltyLoop_iterations ctx rules dm dl tolerance maxIterations
      0 (readTotalCost initial) 0 initial
    unfold resolveRoyaltyCycle
    simp only
    omega
  · unfold resolveRoyaltyCycle
    simp
  · intro hfalse
    unfold resolveRoyaltyCycle at hfalse ⊢
    simp only at hfalse ⊢
    rcases resolveRoyaltyLoop_exit ctx rules dm dl tolerance maxIterations
      0 (readTotalCost initial) 0 initial with h | h
    · omega
    · simp [h] at hfalse

-- ===========================================================================
-- BOM PROCESSOR (class BOMProcessor) and C6
-- ===========================================================================

/-- A BOM component line: itemId, quantity, scrapRate (default 0 like the
    JS || 0 reads), unit label (the string "hours" marks labor lines). -/
structure BomComponent where
  itemId : String
  quantity : ℚ
  scrapRate : ℚ := 0
  unitName : Option String := none
  deriving Repr, DecidableEq

/-- A BOM entry: productId with its ordered component list. -/
structure BomItem where
  productId : String
  components : List BomComponent
  deriving Repr, DecidableEq

/-- The result object of explodeBOM: productId, isRawMaterial flag, the
    exploded components (component, child explosion, effectiveQuantity =
    quantity / (1 - scrapRate)) and the recursion depth. -/
inductive Explosion where
  | mk (productId : String) (isRawMaterial : Bool)
       (components : List (BomComponent × Explosion × ℚ)) (depth : Nat)

/-- this.explosionCache : Map(productId -> explosion result). -/
abbrev ExplosionCache := List (String × Explosion)

mutual

/-- explodeBOM(productId, depth = 0, visited = new Set()) over the indexed
    BOM (this.bom), with this.explosionCache threaded through
    (index.js lines 304-345).  The result triple carries the explosion,
    the updated cache, and the number of non-cache-hit expansions
    performed (0 exactly when the call was answered from the cache).
    The unbounded JS recursion is modelled with fuel; a cycle on the call
    stack is the JS circular-reference throw. -/
def explodeBOM (bom : List (String × BomItem)) (fuel : Nat) (productId : String)
    (depth : Nat) (visited : List String) (cache : ExplosionCache) :
    Except String (Explosion × ExplosionCache × Nat) :=
  match lookupA cache productId with
  | some r => .ok (r, cache, 0)
  | none =>
    if productId ∈ visited then .error "Circular reference detected"
    else
      match lookupA bom productId with
      | none => .ok (.mk productId true [] depth, cache, 1)
      | some product =>
        if product.components = [] then
          .ok (Explosion.mk productId true [] depth,
               setA cache productId (Explosion.mk productId true [] depth), 1)
        else
          match fuel with
          | 0 => .error "recursion fuel exhausted"
          | fuel1 + 1 =>
            match explodeChildren bom fuel1 product.components (depth + 1)
                    (setAdd visited productId) cache with
            | .error e => .error e
            | .ok (comps, cache1, steps) =>
              .ok (Explosion.mk productId false comps depth,
                   setA cache1 productId (Explosion.mk productId false comps depth),
                   steps + 1)
termination_by (fuel, 0, 0)

/-- The for-loop over product.components inside explodeBOM: each child is
    exploded with (a copy of) the parent visited set, the shared cache
    threading left to right. -/
def explodeChildren (bom : List (String × BomItem)) (fuel : Nat)
    (comps : List BomComponent) (depth : Nat) (visited : List String)
    (cache : ExplosionCache) :
    Except String (List (BomComponent × Explosion × ℚ) × ExplosionCache × Nat) :=
  match comps with
  | [] => .ok ([], cache, 0)
  | comp :: rest =>
    match explodeBOM bom fuel comp.itemId depth visited cache with
    | .error e => .error e
    | .ok (child, cache1, s1) =>
      match explodeChildren bom fuel rest depth visited cache1 with
      | .error e => .error e
      | .ok (others, cache2, s2) =>
        .ok ((comp, child, comp.quantity / (1 - comp.scrapRate)) :: others,
             cache2, s1 + s2)
termination_by (fuel, 1, comps.length)

end

/-- Whenever a top-level explodeBOM call on a product that is present in
    the BOM index returns successfully, the returned cache contains the
    returned result under that productId (every successful non-error path
    for an indexed product ends in a cache store; descendants cannot have
    stored the key first since the key sits on the visited stack). -/
theorem explodeBOM_caches (bom : List (String × BomItem)) (fuel : Nat)
    (p : String) (depth : Nat) (visited : List String) (cache : ExplosionCache)
    (r : Explosion) (cache1 : ExplosionCache) (steps : Nat)
    (hok : explodeBOM bom fuel p depth visited cache = .ok (r, cache1, steps))
    (item : BomItem) (hin : lookupA bom p = some item) :
    lookupA cache1 p = some r := by
  rw [explodeBOM] at hok
  cases hcc : lookupA cache p with
  | some r0 =>
    rw [hcc] at hok
    simp only [] at hok
    simp only [Except.ok.injEq, Prod.mk.injEq] at hok
    obtain ⟨h1, h2, _⟩ := hok
    rw [← h2, hcc, h1]
  | none =>
    rw [hcc] at hok
    simp only [] at hok
    by_cases hv : p ∈ visited
    · simp [hv] at hok
    · rw [if_neg hv, hin] at hok
      simp only [] at hok
      by_cases hemp : item.components = []
      · rw [if_pos hemp] at hok
        simp only [Except.ok.injEq, Prod.mk.injEq] at hok
        obtain ⟨h1, h2, _⟩ := hok
        rw [← h2, ← h1]
        exact lookupA_setA_self cache p _
      · rw [if_neg hemp] at hok
        cases fuel with
        | zero => simp at hok
        | succ fuel1 =>
          simp only [] at hok
          cases hch : explodeChildren bom fuel1 item.components (depth + 1)
              (setAdd visited p) cache with
          | error e => rw [hch] at hok; simp at hok
          | ok out =>
            obtain ⟨comps, cachec, s⟩ := out
            rw [hch] at hok
            simp only [] at hok
            simp only [Except.ok.injEq, Prod.mk.injEq] at hok
            obtain ⟨h1, h2, _⟩ := hok
            rw [← h2, ← h1]
            exact lookupA_setA_self cachec p _

/-- When the product is absent from the BOM index and not yet cached, the
    call returns the raw-material leaf, leaves the cache unchanged, and
    counts one (re)computed expansion. -/
theorem explodeBOM_absent (bom : List (String × BomItem)) (fuel : Nat)
    (p : String) (depth : Nat) (cache : ExplosionCache)
    (hcc : lookupA cache p = none) (hnb : lookupA bom p = none) :
    explodeBOM bom fuel p depth [] cache =
      .ok (Explosion.mk p true [] depth, cache, 1) := by
  rw [explodeBOM, hcc]
  simp [hnb]

/-- C6 (amended): explodeBOM is idempotent on every productId — but the
    second call is answered from the productId-keyed cache (zero
    re-traversed expansions) only for products present in the BOM index;
    for an absent productId the result of the raw-material branch is not
    cached, and the second call recomputes the identical leaf (one
    expansion, no children), so the two results are still structurally
    equal. -/
theorem c6_explodeBOM_idempotent (bom : List (String × BomItem))
    (cache : ExplosionCache) (p : String) (fuel fuel2 : Nat)
    (r : Explosion) (cache1 : ExplosionCache) (steps : Nat)
    (hok : explodeBOM bom fuel p 0 [] cache = .ok (r, cache1, steps)) :
    (∀ item, lookupA bom p = some item →
       lookupA cache1 p = some r ∧
       explodeBOM bom fuel2 p 0 [] cache1 = .ok (r, cache1, 0)) ∧
    (lookupA bom p = none → lookupA cache p = none →
       cache1 = cache ∧ steps = 1 ∧
       explodeBOM bom fuel2 p 0 [] cache1 = .ok (r, cache1, 1)) := by
  constructor
  · intro item hin
    have hc : lookupA cache1 p = some r := explodeBOM_caches bom fuel p 0 [] cache
      r cache1 steps hok item hin
    refine ⟨hc, ?_⟩
    rw [explodeBOM, hc]
  · intro hnb hcc
    have := explodeBOM_absent bom fuel p 0 cache hcc hnb
    rw [this] at hok
    simp only [Except.ok.injEq, Prod.mk.injEq] at hok
    obtain ⟨h1, h2, h3⟩ := hok
    refine ⟨h2.symm, h3.symm, ?_⟩
    rw [h2] at hcc
    rw [explodeBOM_absent bom fuel2 p 0 cache1 hcc hnb, h1]

-- ===========================================================================
-- DIRECTED GRAPH (class Graph): data structure and reachability
-- ===========================================================================

/-- The generic directed multigraph: this.adjacencyList is a Map from node
    to its ordered out-edge list; an edge entry is (target node, metadata)
    (JS: { node: to, ...metadata }). -/
structure Graph (β : Type) where
  adj : List (String × List (String × β))

namespace Graph

variable {β : Type}

/-- addNode(node): insert an empty adjacency entry if absent. -/
def addNode (g : Graph β) (node : String) : Graph β :=
  match lookupA g.adj node with
  | some _ => g
  | none => ⟨g.adj ++ [(node, [])]⟩

/-- addEdge(from, to, metadata): auto-insert both endpoints, then push the
    edge onto the source's list. -/
def addEdge (g : Graph β) (src dst : String) (md : β) : Graph β :=
  let g1 := (g.addNode src).addNode dst
  ⟨setA g1.adj src ((lookupA g1.adj src).getD [] ++ [(dst, md)])⟩

/-- getNeighbors(node): the adjacency list entry, or [] if absent. -/
def neighborsOf (g : Graph β) (node : String) : List (String × β) :=
  (lookupA g.adj node).getD []

/-- getNodes(): the keys in insertion order. -/
def nodes (g : Graph β) : List String := g.adj.map Prod.fst

/-- The edge relation: some out-edge of u targets v. -/
def hasEdge (g : Graph β) (u v : String) : Prop :=
  v ∈ (g.neighborsOf u).map Prod.fst

instance (g : Graph β) (u v : String) : Decidable (g.hasEdge u v) :=
  inferInstanceAs (Decidable (v ∈ (g.neighborsOf u).map Prod.fst))

/-- Well-formedness of a graph built through addNode/addEdge: node keys
    are distinct and every edge targets an existing node. -/
def WF (g : Graph β) : Prop :=
  g.nodes.Nodup ∧ ∀ kv ∈ g.adj, ∀ e ∈ kv.2, e.1 ∈ g.nodes

instance (g : Graph β) : Decidable (WF g) :=
  inferInstanceAs (Decidable (_ ∧ _))

/-- Nonempty directed walks. -/
inductive Reaches (g : Graph β) : String → String → Prop where
  | single {u v : String} : g.hasEdge u v → Reaches g u v
  | cons {u v w : String} : g.hasEdge u v → Reaches g v w → Reaches g u w

/-- The graph contains a cycle: some node reaches itself by a nonempty
    walk. -/
def HasCycle (g : Graph β) : Prop := ∃ n, Reaches g n n

/-- All (source, target) pairs of the graph, row by row. -/
def allEdges (g : Graph β) : List (String × String) :=
  g.adj.flatMap (fun kv => kv.2.map (fun e => (kv.1, e.1)))

theorem lookupA_mem {γ : Type} (l : List (String × γ)) (k : String) (v : γ)
    (h : lookupA l k = some v) : (k, v) ∈ l := by
  induction l with
  | nil => simp [lookupA] at h
  | cons hd tl ih =>
    obtain ⟨k1, v1⟩ := hd
    by_cases hk : k1 = k
    · subst hk
      simp [lookupA] at h
      simp [h]
    · simp only [lookupA, if_neg hk] at h
      exact List.mem_cons_of_mem _ (ih h)

theorem hasEdge_mem_allEdges (g : Graph β) (u v : String) (h : g.hasEdge u v) :
    (u, v) ∈ g.allEdges := by
  unfold hasEdge neighborsOf at h
  cases hl : lookupA g.adj u with
  | none => rw [hl] at h; simp at h
  | some es =>
    rw [hl] at h
    simp only [Option.getD_some] at h
    obtain ⟨e, he, hev⟩ := List.mem_map.mp h
    unfold allEdges
    refine List.mem_flatMap.mpr ⟨(u, es), lookupA_mem _ _ _ hl, ?_⟩
    exact List.mem_map.mpr ⟨e, he, by rw [hev]⟩

end Graph

/-- Plain first-index function (mirrors Array.prototype.indexOf over the
    result lists; total, used to state precedence). -/
def idxOf : List String → String → Nat
  | [], _ => 0
  | y :: ys, x => if y = x then 0 else idxOf ys x + 1

theorem idxOf_lt_length (L : List String) (x : String) (h : x ∈ L) :
    idxOf L x < L.length := by
  induction L with
  | nil => simp at h
  | cons y ys ih =>
    by_cases hy : y = x
    · simp [idxOf, hy]
    · have hx : x ∈ ys := by
        rcases List.mem_cons.mp h with h1 | h1
        · exact absurd h1.symm hy
        · exact h1
      simp only [idxOf, if_neg hy, List.length_cons]
      exact Nat.succ_lt_succ (ih hx)

theorem idxOf_append_left (l1 l2 : List String) (x : String) (h : x ∈ l1) :
    idxOf (l1 ++ l2) x = idxOf l1 x := by
  induction l1 with
  | nil => simp at h
  | cons y ys ih =>
    by_cases hy : y = x
    · simp [idxOf, hy]
    · have hx : x ∈ ys := by
        rcases List.mem_cons.mp h with h1 | h1
        · exact absurd h1.symm hy
        · exact h1
      simp only [List.cons_append, idxOf, if_neg hy, List.append_eq]
      rw [ih hx]

theorem idxOf_append_right (l1 l2 : List String) (x : String) (h : x ∉ l1) :
    idxOf (l1 ++ l2) x = l1.length + idxOf l2 x := by
  induction l1 with
  | nil => simp
  | cons y ys ih =>
    have hy : y ≠ x := fun hc => h (by simp [hc])
    have hx : x ∉ ys := fun hc => h (List.mem_cons_of_mem _ hc)
    simp only [List.cons_append, idxOf, if_neg hy, List.length_cons, List.append_eq, ih hx]
    omega

/-- A list whose index order is consistent with every edge certifies
    acyclicity: along any nonempty walk the index strictly increases, so
    no node can reach itself. -/
theorem not_hasCycle_of_topOrder (g : Graph β) (L : List String)
    (h : ∀ u v, g.hasEdge u v → idxOf L u < idxOf L v) : ¬ Graph.HasCycle g := by
  rintro ⟨n, hr⟩
  have key : ∀ u v, Graph.Reaches g u v → idxOf L u < idxOf L v := by
    intro u v huv
    induction huv with
    | single he => exact h _ _ he
    | cons he _ ih => exact (h _ _ he).trans ih
  exact lt_irrefl _ (key n n hr)

/-- Decidable corollary of not_hasCycle_of_topOrder over the finite edge
    list, usable on concrete graphs. -/
theorem not_hasCycle_of_topOrder_edges (g : Graph β) (L : List String)
    (h : ∀ p ∈ g.allEdges, idxOf L p.1 < idxOf L p.2) : ¬ Graph.HasCycle g :=
  not_hasCycle_of_topOrder g L
    (fun u v he => h (u, v) (Graph.hasEdge_mem_allEdges g u v he))

/-- If every node of a nonempty finite set has an in-neighbour inside the
    set, the graph has a cycle: iterate the predecessor choice and apply
    the pigeonhole principle. -/
theorem hasCycle_of_all_have_pred (g : Graph β) (S : List String) (hne : S ≠ [])
    (h : ∀ n ∈ S, ∃ u ∈ S, g.hasEdge u n) : Graph.HasCycle g := by
  classical
  obtain ⟨n0, hn0⟩ := List.exists_mem_of_ne_nil S hne
  let T := {x // x ∈ S.toFinset}
  have hFn : ∀ t : T, ∃ u : T, g.hasEdge u.1 t.1 := by
    rintro ⟨x, hx⟩
    obtain ⟨u, hu, hedge⟩ := h x (List.mem_toFinset.mp hx)
    exact ⟨⟨u, List.mem_toFinset.mpr hu⟩, hedge⟩
  choose F hF using hFn
  let seq : Nat → T := fun k => F^[k] ⟨n0, List.mem_toFinset.mpr hn0⟩
  have hseq : ∀ k, seq (k + 1) = F (seq k) := by
    intro k
    show F^[k + 1] _ = F (F^[k] _)
    rw [Function.iterate_succ_apply']
  have hreach : ∀ a d, Graph.Reaches g (seq (a + d + 1)).1 (seq a).1 := by
    intro a d
    induction d with
    | zero => rw [hseq a]; exact Graph.Reaches.single (hF (seq a))
    | succ e ih =>
      have : seq (a + e + 2) = F (seq (a + e + 1)) := hseq (a + e + 1)
      have hedge : g.hasEdge (seq (a + e + 2)).1 (seq (a + e + 1)).1 := by
        rw [this]; exact hF (seq (a + e + 1))
      have : Graph.Reaches g (seq (a + (e + 1) + 1)).1 (seq a).1 :=
        Graph.Reaches.cons (by rw [show a + (e + 1) + 1 = a + e + 2 from rfl]; exact hedge)
          ih
      exact this
  obtain ⟨a, b, hab, heq⟩ := Fintype.exists_ne_map_eq_of_card_lt
    (fun i : Fin (Fintype.card T + 1) => seq i.1) (by simp)
  rcases Nat.lt_or_ge a.1 b.1 with hlt | hge
  · obtain ⟨d, hd⟩ : ∃ d, b.1 = a.1 + d + 1 := ⟨b.1 - a.1 - 1, by omega⟩
    refine ⟨(seq a.1).1, ?_⟩
    have := hreach a.1 d
    rw [← hd, ← heq] at this
    exact this
  · have hlt : b.1 < a.1 := by
      rcases Nat.lt_or_ge b.1 a.1 with h1 | h1
      · exact h1
      · exact absurd (Fin.eq_of_val_eq (by omega)) hab
    obtain ⟨d, hd⟩ : ∃ d, a.1 = b.1 + d + 1 := ⟨a.1 - b.1 - 1, by omega⟩
    refine ⟨(seq b.1).1, ?_⟩
    have := hreach b.1 d
    rw [← hd, heq] at this
    exact this

-- ===========================================================================
-- TOPOLOGICAL SORT (Graph.topologicalSort, Kahn's algorithm)
-- ===========================================================================

namespace Graph

variable {β : Type}

/-- The increment of the in-degree initialization loop:
    inDegree.set(neighbor, (inDegree.get(neighbor) || 0) + 1). -/
def incrDeg (d : List (String × Int)) (n : String) : List (String × Int) :=
  setA d n ((lookupA d n).getD 0 + 1)

/-- The in-degree map of topologicalSort: every node initialized to 0 in
    node order, then one increment per edge target. -/
def initInDegrees (g : Graph β) : List (String × Int) :=
  g.adj.foldl (fun deg kv => kv.2.foldl (fun d e => incrDeg d e.1) deg)
    (g.adj.map (fun kv => (kv.1, (0 : Int))))

/-- One neighbor visit of a Kahn dequeue step: decrement the neighbor's
    in-degree in place and enqueue it when the new value is exactly 0. -/
def decrStep (st : List (String × Int) × List String) (e : String × β) :
    List (String × Int) × List String :=
  let d := (lookupA st.1 e.1).getD 0 - 1
  if d = 0 then (setA st.1 e.1 d, st.2 ++ [e.1])
  else (setA st.1 e.1 d, st.2)

/-- The while loop of topologicalSort: queue.shift(), append to the
    result, decrement each neighbor, enqueue any reaching zero.  Fuel
    bounds the iteration count; the invariant proofs show that node-count
    fuel never runs out. -/
def kahnLoop (g : Graph β) :
    Nat → List (String × Int) → List String → List String → List String
  | 0, _, _, result => result
  | fuel + 1, deg, queue, result =>
    match queue with
    | [] => result
    | node :: rest =>
      kahnLoop g fuel ((g.neighborsOf node).foldl decrStep (deg, rest)).1
        ((g.neighborsOf node).foldl decrStep (deg, rest)).2 (result ++ [node])

/-- The queue seed: the in-degree-0 nodes in map (insertion) order. -/
def kahnSeed (g : Graph β) : List String :=
  ((initInDegrees g).filter (fun kv => decide (kv.2 = 0))).map Prod.fst

/-- topologicalSort(): Kahn's algorithm; a result shorter than the node
    count means a cycle, raised as the JS throw. -/
def topologicalSort (g : Graph β) : Except String (List String) :=
  if (kahnLoop g g.adj.length (initInDegrees g) (kahnSeed g) []).length ≠ g.nodes.length then
    .error "Cycle detected in dependency graph - topological sort impossible"
  else .ok (kahnLoop g g.adj.length (initInDegrees g) (kahnSeed g) [])

/-- The number of edges into n whose source row key lies outside the
    excluded list: the specification of the remaining in-degree during
    Kahn's algorithm (excluded = the processed result list). -/
def inCountFrom (g : Graph β) (excluded : List String) (n : String) : Nat :=
  ((g.adj.filter (fun kv => decide (kv.1 ∉ excluded))).map
    (fun kv => (kv.2.map Prod.fst).count n)).sum

end Graph

-- ===========================================================================
-- Association-list support lemmas for the Kahn invariants
-- ===========================================================================

theorem setA_keys_of_mem {γ : Type} (l : List (String × γ)) (k : String) (v : γ)
    (h : k ∈ l.map Prod.fst) : (setA l k v).map Prod.fst = l.map Prod.fst := by
  induction l with
  | nil => simp at h
  | cons hd tl ih =>
    obtain ⟨k1, v1⟩ := hd
    by_cases hk : k1 = k
    · subst hk
      simp [setA]
    · simp only [setA, if_neg hk, List.map_cons]
      have hmem : k ∈ tl.map Prod.fst := by
        simp only [List.map_cons, List.mem_cons] at h
        rcases h with h | h
        · exact absurd h.symm hk
        · exact h
      rw [ih hmem]

theorem mem_iff_lookupA_of_nodup {γ : Type} (l : List (String × γ))
    (hnd : (l.map Prod.fst).Nodup) (k : String) (v : γ) :
    (k, v) ∈ l ↔ lookupA l k = some v := by
  induction l with
  | nil => simp [lookupA]
  | cons hd tl ih =>
    obtain ⟨k1, v1⟩ := hd
    simp only [List.map_cons, List.nodup_cons] at hnd
    by_cases hk : k1 = k
    · subst hk
      have hl : lookupA ((k1, v1) :: tl) k1 = some v1 := by simp [lookupA]
      rw [hl]
      constructor
      · intro hmem
        rcases List.mem_cons.mp hmem with h | h
        · simp only [Prod.mk.injEq] at h
          rw [h.2]
        · exact absurd (List.mem_map.mpr ⟨(k1, v), h, rfl⟩) hnd.1
      · intro hv
        simp only [Option.some.injEq] at hv
        rw [← hv]
        exact List.mem_cons_self _ _
    · simp only [lookupA, if_neg hk, List.mem_cons, Prod.mk.injEq]
      rw [← ih hnd.2]
      constructor
      · rintro (⟨hk1, _⟩ | h)
        · exact absurd hk1.symm hk
        · exact h
      · exact fun h => Or.inr h

theorem one_le_sum_of_mem (l : List Nat) (x : Nat) (hx : x ∈ l) (h1 : 1 ≤ x) :
    1 ≤ l.sum := by
  induction l with
  | nil => simp at hx
  | cons y ys ih =>
    rcases List.mem_cons.mp hx with h | h
    · subst h; simp; omega
    · have := ih h; simp; omega

/-- First-occurrence splitting: a key present in an association list with
    duplicate-free keys splits the list around its unique row, and lookup
    returns exactly that row's value. -/
theorem assoc_split_of_mem {γ : Type} (l : List (String × γ))
    (hnd : (l.map Prod.fst).Nodup) (k : String) (hk : k ∈ l.map Prod.fst) :
    ∃ l1 v l2, l = l1 ++ (k, v) :: l2 ∧ k ∉ l1.map Prod.fst ∧
      k ∉ l2.map Prod.fst ∧ lookupA l k = some v := by
  induction l with
  | nil => simp at hk
  | cons hd tl ih =>
    obtain ⟨k1, v1⟩ := hd
    simp only [List.map_cons, List.nodup_cons] at hnd
    by_cases hke : k1 = k
    · subst hke
      refine ⟨[], v1, tl, by simp, by simp, ?_, by simp [lookupA]⟩
      intro hc
      exact hnd.1 hc
    · have hmem : k ∈ tl.map Prod.fst := by
        simp only [List.map_cons, List.mem_cons] at hk
        rcases hk with h | h
        · exact absurd h.symm hke
        · exact h
      obtain ⟨l1, v, l2, heq, h1, h2, h3⟩ := ih hnd.2 hmem
      refine ⟨(k1, v1) :: l1, v, l2, by rw [heq]; rfl, ?_, h2, ?_⟩
      · simp only [List.map_cons, List.mem_cons]
        rintro (h | h)
        · exact hke h.symm
        · exact h1 h
      · simp only [lookupA, if_neg hke]
        exact h3

namespace Graph

variable {β : Type}

/-- Edge sources are nodes. -/
theorem hasEdge_src_mem (g : Graph β) (u v : String) (h : g.hasEdge u v) :
    u ∈ g.nodes := by
  unfold hasEdge neighborsOf at h
  cases hl : lookupA g.adj u with
  | none => rw [hl] at h; simp at h
  | some es =>
    exact List.mem_map.mpr ⟨(u, es), lookupA_mem _ _ _ hl, rfl⟩

/-- Under well-formedness, edge targets are nodes. -/
theorem hasEdge_dst_mem (g : Graph β) (hwf : g.WF) (u v : String)
    (h : g.hasEdge u v) : v ∈ g.nodes := by
  unfold hasEdge neighborsOf at h
  cases hl : lookupA g.adj u with
  | none => rw [hl] at h; simp at h
  | some es =>
    rw [hl] at h
    simp only [Option.getD_some] at h
    obtain ⟨e, he, hev⟩ := List.mem_map.mp h
    have := hwf.2 (u, es) (lookupA_mem _ _ _ hl) e he
    rw [hev] at this
    exact this

/-- An edge from a non-excluded source keeps the remaining in-degree of
    its target positive. -/
theorem one_le_inCountFrom (g : Graph β) (excluded : List String)
    (u v : String) (he : g.hasEdge u v) (hu : u ∉ excluded) :
    1 ≤ inCountFrom g excluded v := by
  unfold hasEdge neighborsOf at he
  cases hl : lookupA g.adj u with
  | none => rw [hl] at he; simp at he
  | some es =>
    rw [hl] at he
    simp only [Option.getD_some] at he
    have hrow : (u, es) ∈ g.adj := lookupA_mem _ _ _ hl
    have hfil : (u, es) ∈ g.adj.filter (fun kv => decide (kv.1 ∉ excluded)) :=
      List.mem_filter.mpr ⟨hrow, by simpa using hu⟩
    unfold inCountFrom
    refine one_le_sum_of_mem _ ((es.map Prod.fst).count v) ?_ ?_
    · exact List.mem_map.mpr ⟨(u, es), hfil, rfl⟩
    · exact List.one_le_count_iff.mpr he

/-- Removing one more source row (present, not yet excluded) from the
    count splits off exactly that row's contribution. -/
theorem inCountFrom_snoc (g : Graph β) (hwf : g.WF) (excluded : List String)
    (u : String) (hu : u ∈ g.nodes) (hunex : u ∉ excluded) (n : String) :
    inCountFrom g excluded n =
      inCountFrom g (excluded ++ [u]) n + ((g.neighborsOf u).map Prod.fst).count n := by
  obtain ⟨l1, es, l2, heq, h1, h2, h3⟩ := assoc_split_of_mem g.adj hwf.1 u hu
  have hnb : g.neighborsOf u = es := by unfold neighborsOf; rw [h3]; rfl
  unfold inCountFrom
  rw [heq]
  have hfil : ∀ (l : List (String × List (String × β))), u ∉ l.map Prod.fst →
      l.filter (fun kv => decide (kv.1 ∉ excluded ++ [u])) =
      l.filter (fun kv => decide (kv.1 ∉ excluded)) := by
    intro l hl
    apply List.filter_congr
    intro kv hkv
    have : kv.1 ≠ u := by
      intro hc
      exact hl (List.mem_map.mpr ⟨kv, hkv, hc⟩)
    simp [List.mem_append, this]
  simp only [List.filter_append, List.filter_cons, List.map_append, List.sum_append,
    hfil l1 h1, hfil l2 h2]
  have hcu : decide ((u, es).1 ∉ excluded) = true := by simpa using hunex
  have hcu2 : decide ((u, es).1 ∉ excluded ++ [u]) = false := by simp
  rw [hcu, hcu2]
  simp [hnb]
  omega

/-- The nested per-row/per-edge increment loops equal one flat fold over
    all edge targets. -/
theorem nested_incr_fold (rows : List (String × List (String × β))) :
    ∀ d : List (String × Int),
      rows.foldl (fun deg kv => kv.2.foldl (fun dd e => incrDeg dd e.1) deg) d =
      (rows.flatMap (fun kv => kv.2.map Prod.fst)).foldl incrDeg d := by
  induction rows with
  | nil => intro d; rfl
  | cons kv rest ih =>
    intro d
    simp only [List.foldl_cons, List.flatMap_cons, List.foldl_append]
    rw [ih, List.foldl_map]

theorem incrFold_lookup (ts : List String) :
    ∀ (d : List (String × Int)) (n : String) (v : Int), lookupA d n = some v →
      lookupA (ts.foldl incrDeg d) n = some (v + (ts.count n : ℤ)) := by
  induction ts with
  | nil => intro d n v h; simpa using h
  | cons t ts ih =>
    intro d n v h
    rw [List.foldl_cons]
    by_cases ht : t = n
    · subst ht
      have h1 : lookupA (incrDeg d t) t = some (v + 1) := by
        unfold incrDeg
        rw [lookupA_setA_self, h]
        rfl
      rw [ih (incrDeg d t) t (v + 1) h1, List.count_cons_self]
      congr 1
      push_cast
      ring
    · have h1 : lookupA (incrDeg d t) n = some v := by
        unfold incrDeg
        rw [lookupA_setA_ne _ _ _ _ ht, h]
      rw [ih (incrDeg d t) n v h1, List.count_cons_of_ne (fun hc => ht hc.symm)]

theorem count_flatMap_rows (rows : List (String × List (String × β))) (n : String) :
    (rows.flatMap (fun kv => kv.2.map Prod.fst)).count n =
      (rows.map (fun kv => (kv.2.map Prod.fst).count n)).sum := by
  induction rows with
  | nil => rfl
  | cons kv rest ih =>
    simp only [List.flatMap_cons, List.count_append, List.map_cons, List.sum_cons, ih]

theorem lookupA_map_zero (rows : List (String × List (String × β))) (n : String)
    (h : n ∈ rows.map Prod.fst) :
    lookupA (rows.map (fun kv => (kv.1, (0 : Int)))) n = some 0 := by
  induction rows with
  | nil => simp at h
  | cons kv rest ih =>
    by_cases hk : kv.1 = n
    · simp [lookupA, hk]
    · simp only [List.map_cons, lookupA, if_neg hk]
      apply ih
      simp only [List.map_cons, List.mem_cons] at h
      rcases h with h | h
      · exact absurd h.symm hk
      · exact h

/-- After initialization the in-degree of every node is exactly the total
    edge count into it. -/
theorem initInDegrees_lookup (g : Graph β) (n : String) (hn : n ∈ g.nodes) :
    lookupA (initInDegrees g) n = some (inCountFrom g [] n : ℤ) := by
  unfold initInDegrees
  rw [nested_incr_fold]
  rw [incrFold_lookup _ _ n 0 (lookupA_map_zero g.adj n hn)]
  rw [count_flatMap_rows]
  have hfilter : g.adj.filter (fun kv => decide (kv.1 ∉ ([] : List String))) = g.adj := by
    apply List.filter_eq_self.mpr
    intro kv _
    simp
  have : inCountFrom g [] n =
      (g.adj.map (fun kv => (kv.2.map Prod.fst).count n)).sum := by
    unfold inCountFrom
    rw [hfilter]
  rw [this]
  push_cast
  ring_nf

/-- The in-degree map keys stay exactly the node list (in insertion
    order). -/
theorem initInDegrees_keys (g : Graph β) (hwf : g.WF) :
    (initInDegrees g).map Prod.fst = g.nodes := by
  unfold initInDegrees
  rw [nested_incr_fold]
  have hkeys : ∀ (ts : List String) (d : List (String × Int)),
      (∀ t ∈ ts, t ∈ d.map Prod.fst) →
      (ts.foldl incrDeg d).map Prod.fst = d.map Prod.fst := by
    intro ts
    induction ts with
    | nil => intro d _; rfl
    | cons t rest ih =>
      intro d hts
      rw [List.foldl_cons]
      have hset : (incrDeg d t).map Prod.fst = d.map Prod.fst :=
        setA_keys_of_mem d t _ (hts t (List.mem_cons_self _ _))
      rw [ih (incrDeg d t) (fun x hx => hset ▸ hts x (List.mem_cons_of_mem _ hx)), hset]
  rw [hkeys]
  · rw [List.map_map]
    rfl
  · intro t ht
    obtain ⟨kv, hkv, hmem⟩ := List.mem_flatMap.mp ht
    obtain ⟨e, he, hev⟩ := List.mem_map.mp hmem
    have hnode := hwf.2 kv hkv e he
    rw [hev] at hnode
    obtain ⟨kv2, hkv2, hfst⟩ := List.mem_map.mp hnode
    refine List.mem_map.mpr ⟨(t, 0), ?_, rfl⟩
    refine List.mem_map.mpr ⟨kv2, hkv2, ?_⟩
    rw [hfst]

/-- Specification of one full neighbor-decrement pass of a Kahn dequeue
    step.  f is the target in-degree reading (the remaining in-degree once
    the dequeued node joins the processed set); the map currently reads f
    plus the pending decrements of the unprocessed suffix.  The pass ends
    with the map reading exactly f, and appends to the queue exactly the
    nodes whose pending decrements brought them to zero — each exactly
    once. -/
theorem decrFold_spec (nodesL : List String) (f : String → Nat) :
    ∀ (todo : List (String × β)) (deg : List (String × Int)) (q : List String),
    (∀ e ∈ todo, e.1 ∈ nodesL) →
    (∀ n ∈ nodesL, lookupA deg n =
      some ((f n : ℤ) + ((todo.map Prod.fst).count n : ℤ))) →
    ∃ extra : List String,
      (todo.foldl decrStep (deg, q)).2 = q ++ extra ∧
      extra.Nodup ∧
      (∀ n, n ∈ extra ↔ (n ∈ nodesL ∧ f n = 0 ∧ 1 ≤ (todo.map Prod.fst).count n)) ∧
      (∀ n ∈ nodesL, lookupA (todo.foldl decrStep (deg, q)).1 n = some (f n : ℤ)) := by
  intro todo
  induction todo with
  | nil =>
    intro deg q _ h2
    refine ⟨[], by simp, List.nodup_nil, ?_, ?_⟩
    · intro n
      simp
    · intro n hn
      have := h2 n hn
      simpa using this
  | cons e todo ih =>
    intro deg q h1 h2
    have ht : e.1 ∈ nodesL := h1 e (List.mem_cons_self _ _)
    have hval : lookupA deg e.1 =
        some ((f e.1 : ℤ) + ((todo.map Prod.fst).count e.1 : ℤ) + 1) := by
      rw [h2 e.1 ht]
      congr 1
      simp only [List.map_cons, List.count_cons_self]
      push_cast
      ring
    have hd : (lookupA deg e.1).getD 0 - 1 =
        (f e.1 : ℤ) + ((todo.map Prod.fst).count e.1 : ℤ) := by
      rw [hval]
      simp
    have hdeg1 : ∀ n ∈ nodesL, lookupA (setA deg e.1 ((lookupA deg e.1).getD 0 - 1)) n =
        some ((f n : ℤ) + ((todo.map Prod.fst).count n : ℤ)) := by
      intro n hn
      by_cases hne : e.1 = n
      · subst hne
        rw [lookupA_setA_self, hd]
      · rw [lookupA_setA_ne _ _ _ _ hne, h2 n hn]
        congr 2
        simp only [List.map_cons]
        rw [List.count_cons_of_ne (fun hc => hne hc.symm)]
    by_cases hzero : (lookupA deg e.1).getD 0 - 1 = 0
    · -- the decrement reaches zero: e.1 is enqueued
      have hsplit : (f e.1 : ℤ) + ((todo.map Prod.fst).count e.1 : ℤ) = 0 := by
        rw [← hd, hzero]
      have hf0 : f e.1 = 0 ∧ (todo.map Prod.fst).count e.1 = 0 := by
        constructor <;> omega
      obtain ⟨extra, hq, hnd, hiff, hdeg⟩ :=
        ih (setA deg e.1 ((lookupA deg e.1).getD 0 - 1)) (q ++ [e.1])
          (fun x hx => h1 x (List.mem_cons_of_mem _ hx)) hdeg1
      have hstep : (e :: todo).foldl decrStep (deg, q) =
          todo.foldl decrStep (setA deg e.1 ((lookupA deg e.1).getD 0 - 1), q ++ [e.1]) := by
        rw [List.foldl_cons]
        unfold decrStep
        rw [if_pos hzero]
      refine ⟨e.1 :: extra, ?_, ?_, ?_, ?_⟩
      · rw [hstep, hq, List.append_assoc]
        rfl
      · refine List.Nodup.cons ?_ hnd
        intro hc
        have := (hiff e.1).mp hc
        omega
      · intro n
        by_cases hne : n = e.1
        · subst hne
          simp only [List.mem_cons, true_or, true_iff]
          refine ⟨ht, hf0.1, ?_⟩
          simp only [List.map_cons, List.count_cons_self]
          omega
        · simp only [List.mem_cons, hne, false_or]
          rw [hiff n]
          have : ((e :: todo).map Prod.fst).count n = (todo.map Prod.fst).count n := by
            simp only [List.map_cons]
            rw [List.count_cons_of_ne hne]
          rw [this]
      · intro n hn
        rw [hstep]
        exact hdeg n hn
    · -- no enqueue
      obtain ⟨extra, hq, hnd, hiff, hdeg⟩ :=
        ih (setA deg e.1 ((lookupA deg e.1).getD 0 - 1)) q
          (fun x hx => h1 x (List.mem_cons_of_mem _ hx)) hdeg1
      have hstep : (e :: todo).foldl decrStep (deg, q) =
          todo.foldl decrStep (setA deg e.1 ((lookupA deg e.1).getD 0 - 1), q) := by
        rw [List.foldl_cons]
        unfold decrStep
        rw [if_neg hzero]
      refine ⟨extra, by rw [hstep]; exact hq, hnd, ?_, ?_⟩
      · intro n
        rw [hiff n]
        by_cases hne : n = e.1
        · have hnz : (f e.1 : ℤ) + ((todo.map Prod.fst).count e.1 : ℤ) ≠ 0 := by
            rw [← hd]; exact hzero
          rw [hne]
          constructor
          · rintro ⟨ha, hb, hc⟩
            refine ⟨ha, hb, ?_⟩
            simp only [List.map_cons, List.count_cons_self]
            omega
          · rintro ⟨ha, hb, _⟩
            refine ⟨ha, hb, ?_⟩
            omega
        · have : ((e :: todo).map Prod.fst).count n = (todo.map Prod.fst).count n := by
            simp only [List.map_cons]
            rw [List.count_cons_of_ne hne]
          rw [this]
      · intro n hn
        rw [hstep]
        exact hdeg n hn

/-- Under well-formedness the out-edge targets of any node are nodes. -/
theorem neighborsOf_targets_mem (g : Graph β) (hwf : g.WF) (u : String) :
    ∀ e ∈ g.neighborsOf u, e.1 ∈ g.nodes := by
  intro e he
  apply hasEdge_dst_mem g hwf u
  exact List.mem_map.mpr ⟨e, he, rfl⟩

/-- The Kahn loop: given the six invariants and node-count fuel, the loop
    returns a duplicate-free list of graph nodes that respects every edge
    into a processed node, and leaves every unprocessed node with positive
    remaining in-degree. -/
theorem kahnLoop_spec (g : Graph β) (hwf : g.WF) :
    ∀ (fuel : Nat) (deg : List (String × Int)) (queue result : List String),
    (result ++ queue).Nodup →
    (∀ n ∈ result ++ queue, n ∈ g.nodes) →
    (∀ n ∈ g.nodes, lookupA deg n = some (inCountFrom g result n : ℤ)) →
    (∀ n ∈ g.nodes, n ∉ result → n ∉ queue → 1 ≤ inCountFrom g result n) →
    (∀ u v, g.hasEdge u v → v ∈ result →
      u ∈ result ∧ idxOf result u < idxOf result v) →
    (∀ n ∈ queue, inCountFrom g result n = 0) →
    g.nodes.length ≤ fuel + result.length →
    (kahnLoop g fuel deg queue result).Nodup ∧
    (∀ n ∈ kahnLoop g fuel deg queue result, n ∈ g.nodes) ∧
    (∀ u v, g.hasEdge u v → v ∈ kahnLoop g fuel deg queue result →
      u ∈ kahnLoop g fuel deg queue result ∧
      idxOf (kahnLoop g fuel deg queue result) u <
        idxOf (kahnLoop g fuel deg queue result) v) ∧
    (∀ n ∈ g.nodes, n ∉ kahnLoop g fuel deg queue result →
      1 ≤ inCountFrom g (kahnLoop g fuel deg queue result) n) := by
  intro fuel
  induction fuel with
  | zero =>
    intro deg queue result hA hB _ hD hE _ hfuel
    have hqnil : queue = [] := by
      have hsub : List.Subperm (result ++ queue) g.nodes :=
        List.Nodup.subperm hA (fun n hn => hB n hn)
      have hlen := hsub.length_le
      rw [List.length_append] at hlen
      have : queue.length = 0 := by omega
      exact List.length_eq_zero.mp this
    subst hqnil
    rw [List.append_nil] at hA hB
    exact ⟨hA, hB, hE, fun n hn hnr => hD n hn hnr (by simp)⟩
  | succ fuel ih =>
    intro deg queue result hA hB hC hD hE hF hfuel
    match queue with
    | [] =>
      rw [List.append_nil] at hA hB
      exact ⟨hA, hB, hE, fun n hn hnr => hD n hn hnr (by simp)⟩
    | u :: rest =>
      have hu_node : u ∈ g.nodes := hB u (by simp)
      have hu_nres : u ∉ result := by
        intro hc
        exact (List.nodup_append.mp hA).2.2 hc (by simp)
      have hFu : inCountFrom g result u = 0 := hF u (by simp)
      have hsnoc : ∀ n, inCountFrom g result n =
          inCountFrom g (result ++ [u]) n + ((g.neighborsOf u).map Prod.fst).count n :=
        inCountFrom_snoc g hwf result u hu_node hu_nres
      obtain ⟨extra, hq, hndx, hiffx, hdegx⟩ :=
        decrFold_spec g.nodes (fun n => inCountFrom g (result ++ [u]) n)
          (g.neighborsOf u) deg rest (neighborsOf_targets_mem g hwf u)
          (by
            intro n hn
            rw [hC n hn, hsnoc n]
            push_cast
            ring_nf)
      -- facts about the freshly enqueued nodes
      have hextra : ∀ n ∈ extra, n ∈ g.nodes ∧
          inCountFrom g (result ++ [u]) n = 0 ∧ g.hasEdge u n ∧
          n ∉ result ∧ n ∉ rest ∧ n ≠ u := by
        intro n hn
        obtain ⟨hn1, hn2, hn3⟩ := (hiffx n).mp hn
        have hedge : g.hasEdge u n := List.one_le_count_iff.mp hn3
        have hpos : 1 ≤ inCountFrom g result n := by
          rw [hsnoc n]; omega
        have hnres : n ∉ result := by
          intro hc
          exact absurd ((hE u n hedge hc).1) hu_nres
        have hnrest : n ∉ rest := by
          intro hc
          have := hF n (by simp [hc])
          omega
        have hnu : n ≠ u := by
          intro hc
          rw [hc] at hpos
          omega
        exact ⟨hn1, hn2, hedge, hnres, hnrest, hnu⟩
      -- re-establish the six invariants for the recursive call
      have hA1 : ((result ++ [u]) ++ (rest ++ extra)).Nodup := by
        rw [show (result ++ [u]) ++ (rest ++ extra) =
          ((result ++ [u]) ++ rest) ++ extra from by simp] at *
        refine List.Nodup.append ?_ hndx ?_
        · rw [show (result ++ [u]) ++ rest = result ++ u :: rest from by simp]
          exact hA
        · intro n hn hnx
          obtain ⟨_, _, _, hnres, hnrest, hnu⟩ := hextra n hnx
          rcases List.mem_append.mp hn with h | h
          · rcases List.mem_append.mp h with h | h
            · exact hnres h
            · exact hnu (by simpa using h)
          · exact hnrest h
      have hB1 : ∀ n ∈ (result ++ [u]) ++ (rest ++ extra), n ∈ g.nodes := by
        intro n hn
        rcases List.mem_append.mp hn with h | h
        · rcases List.mem_append.mp h with h | h
          · exact hB n (List.mem_append.mpr (Or.inl h))
          · rw [show n = u from by simpa using h]
            exact hu_node
        · rcases List.mem_append.mp h with h | h
          · exact hB n (by simp [h])
          · exact (hextra n h).1
      have hC1 : ∀ n ∈ g.nodes,
          lookupA ((g.neighborsOf u).foldl decrStep (deg, rest)).1 n =
          some (inCountFrom g (result ++ [u]) n : ℤ) := hdegx
      have hD1 : ∀ n ∈ g.nodes, n ∉ result ++ [u] → n ∉ rest ++ extra →
          1 ≤ inCountFrom g (result ++ [u]) n := by
        intro n hn hnres hnq
        by_contra hc
        have hzero : inCountFrom g (result ++ [u]) n = 0 := by omega
        by_cases hcnt : 1 ≤ ((g.neighborsOf u).map Prod.fst).count n
        · exact (fun h => hnq (List.mem_append.mpr (Or.inr h)))
            ((hiffx n).mpr ⟨hn, hzero, hcnt⟩)
        · have hzero2 : inCountFrom g result n = 0 := by
            rw [hsnoc n]; omega
          have := hD n hn (fun h => hnres (by simp [h]))
            (fun h => by
              rcases List.mem_cons.mp h with h | h
              · exact hnres (by simp [h])
              · exact hnq (by simp [h]))
          omega
      have hE1 : ∀ a v, g.hasEdge a v → v ∈ result ++ [u] →
          a ∈ result ++ [u] ∧ idxOf (result ++ [u]) a < idxOf (result ++ [u]) v := by
        intro a v hedge hv
        by_cases hvres : v ∈ result
        · obtain ⟨ha, hidx⟩ := hE a v hedge hvres
          refine ⟨by simp [ha], ?_⟩
          rw [idxOf_append_left _ _ _ ha, idxOf_append_left _ _ _ hvres]
          exact hidx
        · have hvu : v = u := by
            rcases List.mem_append.mp hv with h | h
            · exact absurd h hvres
            · simpa using h
          subst hvu
          have hares : a ∈ result := by
            by_contra hc
            have := one_le_inCountFrom g result a v hedge hc
            omega
          refine ⟨by simp [hares], ?_⟩
          rw [idxOf_append_left _ _ _ hares, idxOf_append_right _ _ _ hu_nres]
          have := idxOf_lt_length result a hares
          simp only [idxOf]
          omega
      have hF1 : ∀ n ∈ rest ++ extra, inCountFrom g (result ++ [u]) n = 0 := by
        intro n hn
        rcases List.mem_append.mp hn with h | h
        · have := hF n (by simp [h])
          have := hsnoc n
          omega
        · exact ((hiffx n).mp h).2.1
      have hfuel1 : g.nodes.length ≤ fuel + (result ++ [u]).length := by
        simp only [List.length_append, List.length_cons, List.length_nil]
        omega
      have hrec := ih ((g.neighborsOf u).foldl decrStep (deg, rest)).1
        (rest ++ extra) (result ++ [u]) hA1 hB1 hC1 hD1 hE1 hF1 hfuel1
      rw [show kahnLoop g (fuel + 1) deg (u :: rest) result =
        kahnLoop g fuel ((g.neighborsOf u).foldl decrStep (deg, rest)).1
          ((g.neighborsOf u).foldl decrStep (deg, rest)).2 (result ++ [u]) from rfl]
      rw [hq]
      exact hrec

theorem exists_one_le_of_one_le_sum (l : List Nat) (h : 1 ≤ l.sum) :
    ∃ x ∈ l, 1 ≤ x := by
  induction l with
  | nil => simp at h
  | cons y ys ih =>
    by_cases hy : 1 ≤ y
    · exact ⟨y, by simp, hy⟩
    · have hy0 : y = 0 := by omega
      rw [List.sum_cons, hy0] at h
      obtain ⟨x, hx, h1⟩ := ih (by omega)
      exact ⟨x, by simp [hx], h1⟩

/-- A positive remaining in-degree exhibits an edge from an un-excluded
    source node. -/
theorem exists_pred_of_one_le_inCountFrom (g : Graph β) (hwf : g.WF)
    (excluded : List String) (n : String) (h : 1 ≤ inCountFrom g excluded n) :
    ∃ u, u ∈ g.nodes ∧ u ∉ excluded ∧ g.hasEdge u n := by
  unfold inCountFrom at h
  obtain ⟨x, hx, hx1⟩ := exists_one_le_of_one_le_sum _ h
  obtain ⟨kv, hkv, hxeq⟩ := List.mem_map.mp hx
  have hrow := List.mem_filter.mp hkv
  refine ⟨kv.1, List.mem_map.mpr ⟨kv, hrow.1, rfl⟩, by simpa using hrow.2, ?_⟩
  have hmem : n ∈ kv.2.map Prod.fst := by
    rw [← hxeq] at hx1
    exact List.one_le_count_iff.mp hx1
  have hlook : lookupA g.adj kv.1 = some kv.2 := by
    rw [← mem_iff_lookupA_of_nodup g.adj hwf.1 kv.1 kv.2]
    exact hrow.1
  unfold hasEdge neighborsOf
  rw [hlook]
  simpa using hmem

/-- Membership in the Kahn seed queue: exactly the nodes whose total
    in-degree is zero. -/
theorem mem_kahnSeed (g : Graph β) (hwf : g.WF) (n : String) :
    n ∈ kahnSeed g ↔ (n ∈ g.nodes ∧ inCountFrom g [] n = 0) := by
  have hkeys := initInDegrees_keys g hwf
  have hknd : ((initInDegrees g).map Prod.fst).Nodup := by rw [hkeys]; exact hwf.1
  unfold kahnSeed
  constructor
  · intro hn
    obtain ⟨kv, hkv, hfst⟩ := List.mem_map.mp hn
    have hf := List.mem_filter.mp hkv
    have hv0 : kv.2 = 0 := by simpa using hf.2
    have hnode : n ∈ g.nodes := by
      rw [← hkeys]
      exact List.mem_map.mpr ⟨kv, hf.1, hfst⟩
    have hlk : lookupA (initInDegrees g) kv.1 = some kv.2 := by
      rw [← mem_iff_lookupA_of_nodup _ hknd kv.1 kv.2]
      exact hf.1
    have := initInDegrees_lookup g n hnode
    rw [← hfst, hlk, hv0] at this
    refine ⟨hnode, ?_⟩
    rw [← hfst]
    have h0 := Option.some.inj this
    omega
  · rintro ⟨hnode, h0⟩
    have hlk := initInDegrees_lookup g n hnode
    rw [h0] at hlk
    have hmem : (n, (0 : Int)) ∈ initInDegrees g := by
      rw [mem_iff_lookupA_of_nodup _ hknd n 0]
      simpa using hlk
    refine List.mem_map.mpr ⟨(n, 0), ?_, rfl⟩
    exact List.mem_filter.mpr ⟨hmem, by simp⟩

theorem kahnSeed_nodup (g : Graph β) (hwf : g.WF) : (kahnSeed g).Nodup := by
  have hknd : ((initInDegrees g).map Prod.fst).Nodup := by
    rw [initInDegrees_keys g hwf]; exact hwf.1
  unfold kahnSeed
  exact List.Nodup.sublist (List.Sublist.map Prod.fst (List.filter_sublist _)) hknd

/-- The common facts about the full Kahn run on a well-formed graph:
    the result is a duplicate-free list of nodes, respects every edge into
    a listed node, and every unlisted node keeps a positive remaining
    in-degree. -/
theorem kahnRun_spec (g : Graph β) (hwf : g.WF) :
    (kahnLoop g g.adj.length (initInDegrees g) (kahnSeed g) []).Nodup ∧
    (∀ n ∈ kahnLoop g g.adj.length (initInDegrees g) (kahnSeed g) [], n ∈ g.nodes) ∧
    (∀ u v, g.hasEdge u v →
      v ∈ kahnLoop g g.adj.length (initInDegrees g) (kahnSeed g) [] →
      u ∈ kahnLoop g g.adj.length (initInDegrees g) (kahnSeed g) [] ∧
      idxOf (kahnLoop g g.adj.length (initInDegrees g) (kahnSeed g) []) u <
        idxOf (kahnLoop g g.adj.length (initInDegrees g) (kahnSeed g) []) v) ∧
    (∀ n ∈ g.nodes, n ∉ kahnLoop g g.adj.length (initInDegrees g) (kahnSeed g) [] →
      1 ≤ inCountFrom g (kahnLoop g g.adj.length (initInDegrees g) (kahnSeed g) []) n) := by
  apply kahnLoop_spec g hwf g.adj.length (initInDegrees g) (kahnSeed g) []
  · simpa using kahnSeed_nodup g hwf
  · intro n hn
    exact ((mem_kahnSeed g hwf n).mp (by simpa using hn)).1
  · intro n hn
    exact initInDegrees_lookup g n hn
  · intro n hn _ hns
    by_contra hc
    exact hns ((mem_kahnSeed g hwf n).mpr ⟨hn, by omega⟩)
  · intro u v _ hv
    simp at hv
  · intro n hn
    exact ((mem_kahnSeed g hwf n).mp hn).2
  · have : g.nodes.length = g.adj.length := by
      unfold nodes
      simp
    omega

/-- On a well-formed acyclic graph the Kahn run covers every node. -/
theorem kahnRun_complete (g : Graph β) (hwf : g.WF) (hacyc : ¬ g.HasCycle) :
    ∀ n ∈ g.nodes, n ∈ kahnLoop g g.adj.length (initInDegrees g) (kahnSeed g) [] := by
  obtain ⟨hnd, hmem, horder, hterm⟩ := kahnRun_spec g hwf
  by_contra hc
  push_neg at hc
  obtain ⟨n0, hn0, hn0L⟩ := hc
  apply hacyc
  apply hasCycle_of_all_have_pred g
    (g.nodes.filter (fun n =>
      decide (n ∉ kahnLoop g g.adj.length (initInDegrees g) (kahnSeed g) [])))
  · intro hnil
    have : n0 ∈ g.nodes.filter (fun n =>
        decide (n ∉ kahnLoop g g.adj.length (initInDegrees g) (kahnSeed g) [])) :=
      List.mem_filter.mpr ⟨hn0, by simpa using hn0L⟩
    rw [hnil] at this
    simp at this
  · intro n hn
    have hf := List.mem_filter.mp hn
    have hnL : n ∉ kahnLoop g g.adj.length (initInDegrees g) (kahnSeed g) [] := by
      simpa using hf.2
    obtain ⟨u, hu1, hu2, hu3⟩ :=
      exists_pred_of_one_le_inCountFrom g hwf _ n (hterm n hf.1 hnL)
    exact ⟨u, List.mem_filter.mpr ⟨hu1, by simpa using hu2⟩, hu3⟩

/-- On a well-formed graph containing a cycle, topologicalSort raises the
    configuration error instead of returning an order. -/
theorem topologicalSort_error_of_cycle (g : Graph β) (hwf : g.WF) (hcyc : g.HasCycle) :
    g.topologicalSort =
      .error "Cycle detected in dependency graph - topological sort impossible" := by
  obtain ⟨hnd, hmem, horder, _⟩ := kahnRun_spec g hwf
  have hlen : (kahnLoop g g.adj.length (initInDegrees g) (kahnSeed g) []).length ≠
      g.nodes.length := by
    intro heq
    have hsub : List.Subperm
        (kahnLoop g g.adj.length (initInDegrees g) (kahnSeed g) []) g.nodes :=
      List.Nodup.subperm hnd (fun n hn => hmem n hn)
    have hperm := hsub.perm_of_length_le (by omega)
    apply absurd hcyc
    apply not_hasCycle_of_topOrder g
      (kahnLoop g g.adj.length (initInDegrees g) (kahnSeed g) [])
    intro u v he
    have hv : v ∈ kahnLoop g g.adj.length (initInDegrees g) (kahnSeed g) [] :=
      hperm.mem_iff.mpr (hasEdge_dst_mem g hwf u v he)
    exact (horder u v he hv).2
  unfold topologicalSort
  rw [if_pos hlen]

end Graph

-- ===========================================================================
-- CYCLE DETECTION (Graph.detectCycles, three-color DFS)
-- ===========================================================================

namespace Graph

variable {β : Type}

/-- The WHITE/GRAY/BLACK marking of detectCycles. -/
inductive Color where
  | white
  | gray
  | black
  deriving Repr, DecidableEq

/-- The traversal state of detectCycles: the color map and the collected
    cycles.  The finished list records the order in which nodes turn black;
    it is write-only instrumentation for the proofs, never read by the
    algorithm. -/
structure DfsState where
  color : List (String × Color)
  cycles : List (List String)
  finished : List String

/-- color.get(n). -/
def colorOf (st : DfsState) (n : String) : Option Color := lookupA st.color n

mutual

/-- The inner dfs closure of detectCycles (index.js lines 51-66): color
    the node gray, push it on the path, scan its neighbors (a gray
    neighbor records the cycle slice path.slice(path.indexOf(neighbor))
    ++ [neighbor]; a white neighbor recurses), then pop the path and
    color the node black.  Fuel bounds the recursion depth; the proofs
    show node-count-plus-one fuel never runs out.  (When the gray
    neighbor were not on the path, JS indexOf gives -1 and slice(-1)
    takes the last element; that case is unreachable because gray nodes
    are exactly the path, and the embedding's idxOf-drop then yields []
    before the append, still a nonempty cycle.) -/
def dfsVisit (g : Graph β) (fuel : Nat) (node : String) (path : List String)
    (st : DfsState) : DfsState :=
  match fuel with
  | 0 => st
  | fuel1 + 1 =>
    { dfsNeighbors g fuel1 (g.neighborsOf node) (path ++ [node])
        { st with color := setA st.color node Color.gray } with
      color := setA (dfsNeighbors g fuel1 (g.neighborsOf node) (path ++ [node])
        { st with color := setA st.color node Color.gray }).color node Color.black,
      finished := (dfsNeighbors g fuel1 (g.neighborsOf node) (path ++ [node])
        { st with color := setA st.color node Color.gray }).finished ++ [node] }
termination_by (fuel, 0, 0)

/-- The neighbor scan of the dfs closure. -/
def dfsNeighbors (g : Graph β) (fuel : Nat) (ns : List (String × β))
    (path : List String) (st : DfsState) : DfsState :=
  match ns with
  | [] => st
  | e :: rest =>
    dfsNeighbors g fuel rest path
      (if colorOf st e.1 = some Color.gray then
        { st with cycles := st.cycles ++ [path.drop (idxOf path e.1) ++ [e.1]] }
      else if colorOf st e.1 = some Color.white then
        dfsVisit g fuel e.1 path st
      else st)
termination_by (fuel, 1, ns.length)

end

/-- The initial detectCycles state: every node WHITE, no cycles. -/
def detectInit (g : Graph β) : DfsState :=
  { color := g.adj.map (fun kv => (kv.1, Color.white)), cycles := [], finished := [] }

/-- One iteration of the outer loop of detectCycles: dfs from the node if
    it is still white. -/
def detectStep (g : Graph β) (st : DfsState) (kv : String × List (String × β)) :
    DfsState :=
  if colorOf st kv.1 = some Color.white then
    dfsVisit g (g.adj.length + 1) kv.1 [] st
  else st

/-- detectCycles(): three-color DFS from every still-white node in node
    insertion order; returns the collected cycles. -/
def detectCycles (g : Graph β) : List (List String) :=
  (g.adj.foldl (detectStep g) (detectInit g)).cycles

/-- The black-node bookkeeping invariant: every black node is on the
    finished list, and each of its out-edges either reaches an
    earlier-finished black node or a cycle has been recorded. -/
def BlackInv (g : Graph β) (st : DfsState) : Prop :=
  ∀ u, colorOf st u = some Color.black →
    u ∈ st.finished ∧ ∀ v, g.hasEdge u v →
      (colorOf st v = some Color.black ∧
        idxOf st.finished v < idxOf st.finished u) ∨ st.cycles ≠ []

end Graph

/-- A list whose index order is consistent with every REVERSED edge also
    certifies acyclicity (the finishing order of a completed DFS). -/
theorem not_hasCycle_of_reverse_order {β : Type} (g : Graph β) (L : List String)
    (h : ∀ u v, g.hasEdge u v → idxOf L v < idxOf L u) : ¬ Graph.HasCycle g := by
  rintro ⟨n, hr⟩
  have key : ∀ u v, Graph.Reaches g u v → idxOf L v < idxOf L u := by
    intro u v huv
    induction huv with
    | single he => exact h _ _ he
    | cons he _ ih => exact ih.trans (h _ _ he)
  exact lt_irrefl _ (key n n hr)

theorem lookupA_isSome_of_mem_keys {γ : Type} (l : List (String × γ)) (n : String)
    (h : n ∈ l.map Prod.fst) : (lookupA l n).isSome := by
  induction l with
  | nil => simp at h
  | cons hd tl ih =>
    by_cases hk : hd.1 = n
    · simp [lookupA, hk]
    · simp only [lookupA, if_neg hk]
      apply ih
      simp only [List.map_cons, List.mem_cons] at h
      rcases h with h | h
      · exact absurd h.symm hk
      · exact h

namespace Graph

variable {β : Type}

/-- Preconditions of the dfs functions: the color keys are the nodes, the
    path is a duplicate-free list of nodes, the gray nodes are exactly the
    path, and the black bookkeeping invariants hold. -/
def DfsPre (g : Graph β) (path : List String) (st : DfsState) : Prop :=
  st.color.map Prod.fst = g.nodes ∧
  path.Nodup ∧
  (∀ p ∈ path, p ∈ g.nodes) ∧
  (∀ u, colorOf st u = some Color.gray ↔ u ∈ path) ∧
  BlackInv g st ∧
  (∀ u, u ∈ st.finished ↔ colorOf st u = some Color.black)

/-- Postconditions of the dfs functions relative to the entry state:
    color keys unchanged, black set only grows, the gray set is exactly
    the given path, finished and cycles are append-only (new cycles
    nonempty), and the black bookkeeping invariants hold on exit. -/
def DfsPost (g : Graph β) (path : List String) (st st' : DfsState) : Prop :=
  st'.color.map Prod.fst = st.color.map Prod.fst ∧
  (∀ u, colorOf st u = some Color.black → colorOf st' u = some Color.black) ∧
  (∀ u, colorOf st' u = some Color.gray ↔ u ∈ path) ∧
  (∃ fin2, st'.finished = st.finished ++ fin2) ∧
  (∃ cs, st'.cycles = st.cycles ++ cs ∧ ∀ c ∈ cs, c ≠ []) ∧
  BlackInv g st' ∧
  (∀ u, u ∈ st'.finished ↔ colorOf st' u = some Color.black)

theorem DfsPost.rfl_of_pre (g : Graph β) (path : List String) (st : DfsState)
    (hpre : DfsPre g path st) : DfsPost g path st st := by
  obtain ⟨_, _, _, h4, h5, h6⟩ := hpre
  exact ⟨rfl, fun u h => h, h4, ⟨[], by simp⟩, ⟨[], by simp⟩, h5, h6⟩

theorem DfsPost.trans (g : Graph β) (path : List String) (st1 st2 st3 : DfsState)
    (h12 : DfsPost g path st1 st2) (h23 : DfsPost g path st2 st3) :
    DfsPost g path st1 st3 := by
  obtain ⟨a1, a2, _, ⟨f1, a4⟩, ⟨c1, a5, a5n⟩, _, _⟩ := h12
  obtain ⟨b1, b2, b3, ⟨f2, b4⟩, ⟨c2, b5, b5n⟩, b6, b7⟩ := h23
  refine ⟨b1.trans a1, fun u h => b2 u (a2 u h), b3, ⟨f1 ++ f2, ?_⟩,
    ⟨c1 ++ c2, ?_, ?_⟩, b6, b7⟩
  · rw [b4, a4, List.append_assoc]
  · rw [b5, a5, List.append_assoc]
  · intro c hc
    rcases List.mem_append.mp hc with h | h
    · exact a5n c h
    · exact b5n c h

/-- BlackInv is insensitive to recoloring one non-black node with a
    non-black color. -/
theorem BlackInv.recolor (g : Graph β) (st : DfsState) (hb : BlackInv g st)
    (n : String) (c : Color) (hcn : c ≠ Color.black)
    (hold : colorOf st n ≠ some Color.black) :
    BlackInv g { st with color := setA st.color n c } := by
  intro u hu
  have hcol : ∀ v, colorOf { st with color := setA st.color n c } v = some Color.black →
      colorOf st v = some Color.black := by
    intro v hv
    by_cases hvn : n = v
    · subst hvn
      unfold colorOf at hv
      simp only at hv
      rw [lookupA_setA_self] at hv
      exact absurd (Option.some.inj hv) hcn
    · unfold colorOf at hv ⊢
      simp only at hv
      rwa [lookupA_setA_ne _ _ _ _ hvn] at hv
  have hu' := hcol u hu
  obtain ⟨h1, h2⟩ := hb u hu'
  refine ⟨h1, fun v hv => ?_⟩
  rcases h2 v hv with ⟨hvb, hidx⟩ | hcy
  · left
    refine ⟨?_, hidx⟩
    by_cases hvn : n = v
    · subst hvn
      exact absurd hvb hold
    · unfold colorOf
      simp only
      rw [lookupA_setA_ne _ _ _ _ hvn]
      exact hvb
  · right
    exact hcy

theorem colorOf_setA_self (st : DfsState) (n : String) (c : Color) :
    colorOf { st with color := setA st.color n c } n = some c := by
  unfold colorOf
  simp only
  exact lookupA_setA_self _ _ _

theorem colorOf_setA_ne (st : DfsState) (n m : String) (c : Color) (h : n ≠ m) :
    colorOf { st with color := setA st.color n c } m = colorOf st m := by
  unfold colorOf
  simp only
  exact lookupA_setA_ne _ _ _ _ h

theorem colorOf_record_self (cl : List (String × Color)) (cys : List (List String))
    (fins : List String) (n : String) (col : Color) :
    colorOf ⟨setA cl n col, cys, fins⟩ n = some col :=
  lookupA_setA_self _ _ _

theorem colorOf_record_ne (cl : List (String × Color)) (cys : List (List String))
    (fins : List String) (n m : String) (col : Color) (h : n ≠ m) :
    colorOf ⟨setA cl n col, cys, fins⟩ m = lookupA cl m :=
  lookupA_setA_ne _ _ _ _ h

/-- Every node carries a color. -/
theorem colorOf_total (g : Graph β) (st : DfsState)
    (hkeys : st.color.map Prod.fst = g.nodes) (n : String) (hn : n ∈ g.nodes) :
    ∃ c, colorOf st n = some c := by
  have := lookupA_isSome_of_mem_keys st.color n (by rw [hkeys]; exact hn)
  unfold colorOf
  exact Option.isSome_iff_exists.mp this

theorem DfsPre.of_post (g : Graph β) (path : List String) (st st' : DfsState)
    (hpre : DfsPre g path st) (hpost : DfsPost g path st st') : DfsPre g path st' := by
  obtain ⟨k, _, gr, _, _, bi, fb⟩ := hpost
  exact ⟨k.trans hpre.1, hpre.2.1, hpre.2.2.1, gr, bi, fb⟩

/-- The dfsVisit specification at a given fuel level: visiting a white
    node under the invariants yields the dfs postconditions and leaves the
    node black. -/
def VisitSpecP (g : Graph β) (fuel : Nat) : Prop :=
  ∀ (node : String) (path : List String) (st : DfsState),
    DfsPre g path st →
    node ∈ g.nodes →
    colorOf st node = some Color.white →
    g.nodes.length + 1 ≤ fuel + path.length →
    DfsPost g path st (dfsVisit g fuel node path st) ∧
    colorOf (dfsVisit g fuel node path st) node = some Color.black

/-- The neighbor scan: assuming the dfsVisit spec at the same fuel, the
    scan preserves the invariants and leaves every scanned neighbor black
    unless a cycle has been recorded. -/
theorem dfsNeighbors_spec (g : Graph β) (_hwf : g.WF) (fuel : Nat)
    (hvisit : VisitSpecP g fuel) :
    ∀ (ns : List (String × β)) (path : List String) (st : DfsState),
      DfsPre g path st →
      (∀ e ∈ ns, e.1 ∈ g.nodes) →
      g.nodes.length + 1 ≤ fuel + path.length →
      DfsPost g path st (dfsNeighbors g fuel ns path st) ∧
      (∀ e ∈ ns, colorOf (dfsNeighbors g fuel ns path st) e.1 = some Color.black ∨
        (dfsNeighbors g fuel ns path st).cycles ≠ []) := by
  intro ns
  induction ns with
  | nil =>
    intro path st hpre _ _
    rw [dfsNeighbors]
    refine ⟨DfsPost.rfl_of_pre g path st hpre, ?_⟩
    intro e he
    simp at he
  | cons e rest ih =>
    intro path st hpre htgt hfuel
    have hstep : dfsNeighbors g fuel (e :: rest) path st =
        dfsNeighbors g fuel rest path
          (if colorOf st e.1 = some Color.gray then
            { st with cycles := st.cycles ++ [path.drop (idxOf path e.1) ++ [e.1]] }
          else if colorOf st e.1 = some Color.white then
            dfsVisit g fuel e.1 path st
          else st) := by
      rw [dfsNeighbors]
    have hrest : ∀ st1 : DfsState, DfsPre g path st1 → DfsPost g path st st1 →
        (colorOf st1 e.1 = some Color.black ∨ st1.cycles ≠ []) →
        DfsPost g path st (dfsNeighbors g fuel rest path st1) ∧
        (∀ x ∈ e :: rest, colorOf (dfsNeighbors g fuel rest path st1) x.1 =
          some Color.black ∨ (dfsNeighbors g fuel rest path st1).cycles ≠ []) := by
      intro st1 hpre1 hpost1 hE
      obtain ⟨hpostR, hPNR⟩ := ih path st1 hpre1
        (fun x hx => htgt x (List.mem_cons_of_mem _ hx)) hfuel
      refine ⟨DfsPost.trans g path st st1 _ hpost1 hpostR, ?_⟩
      intro x hx
      rcases List.mem_cons.mp hx with hxe | hxr
      · rcases hE with hb | hcy
        · left
          rw [hxe]
          exact hpostR.2.1 e.1 hb
        · right
          obtain ⟨cs, hcs, _⟩ := hpostR.2.2.2.2.1
          rw [hcs]
          intro hc
          rcases List.append_eq_nil.mp hc with ⟨h1, _⟩
          exact hcy h1
      · exact hPNR x hxr
    rw [hstep]
    by_cases hg : colorOf st e.1 = some Color.gray
    · rw [if_pos hg]
      have hb1 : BlackInv g { st with cycles :=
          st.cycles ++ [path.drop (idxOf path e.1) ++ [e.1]] } := by
        intro u hu
        obtain ⟨h1, _⟩ := hpre.2.2.2.2.1 u hu
        refine ⟨h1, fun v _ => Or.inr ?_⟩
        simp
      have hpost1 : DfsPost g path st { st with cycles :=
          st.cycles ++ [path.drop (idxOf path e.1) ++ [e.1]] } := by
        refine ⟨rfl, fun u h => h, hpre.2.2.2.1, ⟨[], by simp⟩,
          ⟨[path.drop (idxOf path e.1) ++ [e.1]], rfl, ?_⟩, hb1, hpre.2.2.2.2.2⟩
        intro c hc
        simp only [List.mem_singleton] at hc
        rw [hc]
        simp
      have hpre1 : DfsPre g path { st with cycles :=
          st.cycles ++ [path.drop (idxOf path e.1) ++ [e.1]] } :=
        DfsPre.of_post g path st _ hpre hpost1
      exact hrest _ hpre1 hpost1 (Or.inr (by simp))
    · rw [if_neg hg]
      by_cases hw : colorOf st e.1 = some Color.white
      · rw [if_pos hw]
        obtain ⟨hpostV, hblackV⟩ := hvisit e.1 path st hpre
          (htgt e (List.mem_cons_self _ _)) hw hfuel
        exact hrest _ (DfsPre.of_post g path st _ hpre hpostV) hpostV (Or.inl hblackV)
      · rw [if_neg hw]
        have hblack : colorOf st e.1 = some Color.black := by
          obtain ⟨c, hc⟩ := colorOf_total g st hpre.1 e.1 (htgt e (List.mem_cons_self _ _))
          cases c with
          | white => exact absurd hc hw
          | gray => exact absurd hc hg
          | black => exact hc
        exact hrest st (hpre) (DfsPost.rfl_of_pre g path st hpre) (Or.inl hblack)

/-- The dfsVisit spec holds at every fuel level. -/
theorem dfsVisit_spec (g : Graph β) (hwf : g.WF) : ∀ fuel, VisitSpecP g fuel := by
  intro fuel
  induction fuel with
  | zero =>
    intro node path st hpre hnode hwhite hfuel
    exfalso
    have hsub : List.Subperm path g.nodes :=
      List.Nodup.subperm hpre.2.1 (fun p hp => hpre.2.2.1 p hp)
    have := hsub.length_le
    omega
  | succ fuel ih =>
    intro node path st hpre hnode hwhite hfuel
    have hnp : node ∉ path := by
      intro hc
      have := (hpre.2.2.2.1 node).mpr hc
      rw [hwhite] at this
      simp at this
    have hkeys1 : (setA st.color node Color.gray).map Prod.fst = g.nodes := by
      rw [setA_keys_of_mem st.color node _ (by rw [hpre.1]; exact hnode)]
      exact hpre.1
    have hpre1 : DfsPre g (path ++ [node])
        { st with color := setA st.color node Color.gray } := by
      refine ⟨hkeys1, ?_, ?_, ?_, ?_, ?_⟩
      · refine List.Nodup.append hpre.2.1 (List.nodup_singleton node) ?_
        intro a ha hb
        have hab : a = node := by simpa using hb
        rw [hab] at ha
        exact hnp ha
      · intro p hp
        rcases List.mem_append.mp hp with h | h
        · exact hpre.2.2.1 p h
        · rwa [show p = node from by simpa using h]
      · intro u
        by_cases hun : node = u
        · subst hun
          rw [colorOf_setA_self]
          simp
        · rw [colorOf_setA_ne st node u Color.gray hun]
          rw [hpre.2.2.2.1 u]
          constructor
          · intro h
            exact List.mem_append.mpr (Or.inl h)
          · intro h
            rcases List.mem_append.mp h with h | h
            · exact h
            · have hun2 : u = node := by simpa using h
              exact absurd hun2.symm hun
      · refine BlackInv.recolor g st hpre.2.2.2.2.1 node Color.gray (by simp) ?_
        rw [hwhite]
        simp
      · intro u
        by_cases hun : node = u
        · subst hun
          rw [colorOf_setA_self]
          constructor
          · intro h
            have := (hpre.2.2.2.2.2 node).mp h
            rw [hwhite] at this
            simp at this
          · intro h
            simp at h
        · rw [colorOf_setA_ne st node u Color.gray hun]
          exact hpre.2.2.2.2.2 u
    have hfuel1 : g.nodes.length + 1 ≤ fuel + (path ++ [node]).length := by
      simp only [List.length_append, List.length_cons, List.length_nil]
      omega
    obtain ⟨hpost2, hPN⟩ := dfsNeighbors_spec g hwf fuel ih (g.neighborsOf node)
      (path ++ [node]) { st with color := setA st.color node Color.gray } hpre1
      (neighborsOf_targets_mem g hwf node) hfuel1
    set st2 := dfsNeighbors g fuel (g.neighborsOf node) (path ++ [node])
      { st with color := setA st.color node Color.gray } with hst2
    obtain ⟨hkeys2, hmono2, hgray2, ⟨fin2, hfin2⟩, ⟨cs2, hcs2, hcs2n⟩, hbi2, hfb2⟩ := hpost2
    have hkeys2n : st2.color.map Prod.fst = g.nodes := hkeys2.trans hkeys1
    have hng2 : colorOf st2 node = some Color.gray := (hgray2 node).mpr (by simp)
    have hnfin2 : node ∉ st2.finished := by
      intro hc
      have := (hfb2 node).mp hc
      rw [hng2] at this
      simp at this
    have hvisit_eq : dfsVisit g (fuel + 1) node path st =
        { st2 with color := setA st2.color node Color.black,
                   finished := st2.finished ++ [node] } := by
      rw [dfsVisit]
    rw [hvisit_eq]
    constructor
    · refine ⟨?_, ?_, ?_, ?_, ?_, ?_, ?_⟩
      · show (setA st2.color node Color.black).map Prod.fst = st.color.map Prod.fst
        rw [setA_keys_of_mem st2.color node _ (by rw [hkeys2n]; exact hnode)]
        rw [hkeys2n, hpre.1]
      · intro u hu
        have hun : node ≠ u := by
          intro hc
          rw [← hc, hwhite] at hu
          simp at hu
        rw [colorOf_record_ne _ _ _ _ _ _ hun]
        apply hmono2
        rw [colorOf_setA_ne st node u Color.gray hun]
        exact hu
      · intro u
        by_cases hun : node = u
        · subst hun
          rw [colorOf_record_self]
          simp [hnp]
        · rw [colorOf_record_ne _ _ _ _ _ _ hun]
          have : lookupA st2.color u = colorOf st2 u := rfl
          rw [this, hgray2 u]
          constructor
          · intro h
            rcases List.mem_append.mp h with h | h
            · exact h
            · have hun2 : u = node := by simpa using h
              exact absurd hun2.symm hun
          · intro h
            exact List.mem_append.mpr (Or.inl h)
      · refine ⟨fin2 ++ [node], ?_⟩
        show st2.finished ++ [node] = st.finished ++ (fin2 ++ [node])
        rw [hfin2]
        simp
      · exact ⟨cs2, hcs2, hcs2n⟩
      · -- BlackInv of the final state
        intro u hu
        by_cases hun : node = u
        · subst hun
          refine ⟨by simp, ?_⟩
          intro v hv
          obtain ⟨e, he, hev⟩ := List.mem_map.mp hv
          rcases hPN e he with hb | hcy
          · rw [hev] at hb
            have hvn : node ≠ v := by
              intro hc
              rw [← hc, hng2] at hb
              simp at hb
            left
            constructor
            · rw [colorOf_record_ne _ _ _ _ _ _ hvn]
              exact hb
            · have hvfin : v ∈ st2.finished := (hfb2 v).mpr hb
              show idxOf (st2.finished ++ [node]) v < idxOf (st2.finished ++ [node]) node
              rw [idxOf_append_left _ _ _ hvfin, idxOf_append_right _ _ _ hnfin2]
              have := idxOf_lt_length st2.finished v hvfin
              simp only [idxOf]
              omega
          · right
            show st2.cycles ≠ []
            exact hcy
        · rw [colorOf_record_ne _ _ _ _ _ _ hun] at hu
          obtain ⟨hufin, hedges⟩ := hbi2 u hu
          refine ⟨List.mem_append.mpr (Or.inl hufin), ?_⟩
          intro v hv
          rcases hedges v hv with ⟨hvb, hidx⟩ | hcy
          · have hvn : node ≠ v := by
              intro hc
              rw [← hc, hng2] at hvb
              simp at hvb
            left
            constructor
            · rw [colorOf_record_ne _ _ _ _ _ _ hvn]
              exact hvb
            · have hvfin : v ∈ st2.finished := (hfb2 v).mpr hvb
              show idxOf (st2.finished ++ [node]) v < idxOf (st2.finished ++ [node]) u
              rw [idxOf_append_left _ _ _ hvfin, idxOf_append_left _ _ _ hufin]
              exact hidx
          · right
            exact hcy
      · intro u
        by_cases hun : node = u
        · subst hun
          rw [colorOf_record_self]
          simp
        · rw [colorOf_record_ne _ _ _ _ _ _ hun]
          have hlk : lookupA st2.color u = colorOf st2 u := rfl
          rw [hlk, ← hfb2 u]
          constructor
          · intro h
            rcases List.mem_append.mp h with h | h
            · exact h
            · have hun2 : u = node := by simpa using h
              exact absurd hun2.symm hun
          · intro h
            exact List.mem_append.mpr (Or.inl h)
    · exact colorOf_record_self st2.color st2.cycles (st2.finished ++ [node]) node
        Color.black

/-- The outer loop of detectCycles preserves the invariants (with the
    empty path) and blackens every processed row key unless a cycle has
    been recorded. -/
theorem detectFold_spec (g : Graph β) (hwf : g.WF) :
    ∀ (rows : List (String × List (String × β))) (st : DfsState),
      DfsPre g [] st →
      (∀ kv ∈ rows, kv.1 ∈ g.nodes) →
      DfsPost g [] st (rows.foldl (detectStep g) st) ∧
      (∀ kv ∈ rows,
        colorOf (rows.foldl (detectStep g) st) kv.1 = some Color.black ∨
        (rows.foldl (detectStep g) st).cycles ≠ []) := by
  have hlen : g.nodes.length = g.adj.length := by
    unfold nodes
    simp
  intro rows
  induction rows with
  | nil =>
    intro st hpre _
    refine ⟨DfsPost.rfl_of_pre g [] st hpre, ?_⟩
    intro kv hkv
    simp at hkv
  | cons kv rest ih =>
    intro st hpre htgt
    have hrest : ∀ st1 : DfsState, DfsPre g [] st1 → DfsPost g [] st st1 →
        (colorOf st1 kv.1 = some Color.black ∨ st1.cycles ≠ []) →
        DfsPost g [] st (rest.foldl (detectStep g) st1) ∧
        (∀ x ∈ kv :: rest,
          colorOf (rest.foldl (detectStep g) st1) x.1 = some Color.black ∨
          (rest.foldl (detectStep g) st1).cycles ≠ []) := by
      intro st1 hpre1 hpost1 hE
      obtain ⟨hpostR, hPNR⟩ := ih st1 hpre1 (fun x hx => htgt x (List.mem_cons_of_mem _ hx))
      refine ⟨DfsPost.trans g [] st st1 _ hpost1 hpostR, ?_⟩
      intro x hx
      rcases List.mem_cons.mp hx with hxe | hxr
      · rcases hE with hb | hcy
        · left
          rw [hxe]
          exact hpostR.2.1 kv.1 hb
        · right
          obtain ⟨cs, hcs, _⟩ := hpostR.2.2.2.2.1
          rw [hcs]
          intro hc
          rcases List.append_eq_nil.mp hc with ⟨h1, _⟩
          exact hcy h1
      · exact hPNR x hxr
    rw [List.foldl_cons]
    unfold detectStep
    by_cases hw : colorOf st kv.1 = some Color.white
    · rw [if_pos hw]
      obtain ⟨hpostV, hblackV⟩ := dfsVisit_spec g hwf (g.adj.length + 1) kv.1 [] st
        hpre (htgt kv (List.mem_cons_self _ _)) hw (by simp; omega)
      exact hrest _ (DfsPre.of_post g [] st _ hpre hpostV) hpostV (Or.inl hblackV)
    · rw [if_neg hw]
      have hblack : colorOf st kv.1 = some Color.black := by
        obtain ⟨c, hc⟩ := colorOf_total g st hpre.1 kv.1 (htgt kv (List.mem_cons_self _ _))
        cases c with
        | white => exact absurd hc hw
        | gray =>
          have := (hpre.2.2.2.1 kv.1).mp hc
          simp at this
        | black => exact hc
      exact hrest st hpre (DfsPost.rfl_of_pre g [] st hpre) (Or.inl hblack)

theorem lookupA_map_white (rows : List (String × List (String × β))) (n : String)
    (c : Color) (h : lookupA (rows.map (fun kv => (kv.1, Color.white))) n = some c) :
    c = Color.white := by
  induction rows with
  | nil => simp [lookupA] at h
  | cons kv rest ih =>
    by_cases hk : kv.1 = n
    · simp [lookupA, hk] at h
      exact h.symm
    · simp only [List.map_cons, lookupA, if_neg hk] at h
      exact ih h

/-- The initial detectCycles state satisfies the invariants. -/
theorem detectInit_pre (g : Graph β) (_hwf : g.WF) :
    DfsPre g [] (detectInit g) := by
  unfold detectInit
  refine ⟨?_, List.nodup_nil, by simp, ?_, ?_, ?_⟩
  · rw [List.map_map]
    rfl
  · intro u
    simp only [List.not_mem_nil, iff_false]
    intro hc
    have := lookupA_map_white g.adj u Color.gray hc
    simp at this
  · intro u hu
    have := lookupA_map_white g.adj u Color.black hu
    simp at this
  · intro u
    simp only [List.not_mem_nil, false_iff]
    intro hc
    have := lookupA_map_white g.adj u Color.black hc
    simp at this

/-- If detectCycles finds nothing, the graph is acyclic: with no recorded
    cycle every node finishes black and every edge goes to an
    earlier-finished node, so the finishing order certifies acyclicity. -/
theorem detectCycles_empty_acyclic (g : Graph β) (hwf : g.WF)
    (hempty : g.detectCycles = []) : ¬ g.HasCycle := by
  obtain ⟨hpost, hPN⟩ := detectFold_spec g hwf g.adj (detectInit g)
    (detectInit_pre g hwf)
    (fun kv hkv => List.mem_map.mpr ⟨kv, hkv, rfl⟩)
  have hcyc0 : (g.adj.foldl (detectStep g) (detectInit g)).cycles = [] := hempty
  have hallblack : ∀ n ∈ g.nodes,
      colorOf (g.adj.foldl (detectStep g) (detectInit g)) n = some Color.black := by
    intro n hn
    obtain ⟨kv, hkv, hfst⟩ := List.mem_map.mp hn
    rcases hPN kv hkv with hb | hcy
    · rw [← hfst]
      exact hb
    · exact absurd hcyc0 hcy
  apply not_hasCycle_of_reverse_order g
    (g.adj.foldl (detectStep g) (detectInit g)).finished
  intro u v he
  have hub := hallblack u (hasEdge_src_mem g u v he)
  obtain ⟨_, hedges⟩ := hpost.2.2.2.2.2.1 u hub
  rcases hedges v he with ⟨_, hidx⟩ | hcy
  · exact hidx
  · exact absurd hcyc0 hcy

/-- Every cycle detectCycles records is nonempty (each recorded slice ends
    with the closing gray neighbor). -/
theorem detectCycles_members_nonempty (g : Graph β) (hwf : g.WF) :
    ∀ c ∈ g.detectCycles, c ≠ [] := by
  obtain ⟨hpost, _⟩ := detectFold_spec g hwf g.adj (detectInit g)
    (detectInit_pre g hwf)
    (fun kv hkv => List.mem_map.mpr ⟨kv, hkv, rfl⟩)
  obtain ⟨cs, hcs, hcsn⟩ := hpost.2.2.2.2.1
  intro c hc
  unfold detectCycles at hc
  rw [hcs] at hc
  simp only [detectInit, List.nil_append] at hc
  exact hcsn c hc

end Graph

-- ===========================================================================
-- CLAIM THEOREM (C3)
-- ===========================================================================

/-- C3: for every well-formed directed graph that contains no cycle,
    topologicalSort() succeeds with a list whose length equals the number
    of nodes, and for every edge (u, v) both endpoints appear in the list
    with u strictly before v. -/
theorem c3_topologicalSort_acyclic {β : Type} (g : Graph β) (hwf : g.WF)
    (hacyc : ¬ g.HasCycle) :
    ∃ L, g.topologicalSort = .ok L ∧ L.length = g.nodes.length ∧
      ∀ u v, g.hasEdge u v → u ∈ L ∧ v ∈ L ∧ idxOf L u < idxOf L v := by
  obtain ⟨hnd, hmem, horder, _⟩ := Graph.kahnRun_spec g hwf
  have hcompl := Graph.kahnRun_complete g hwf hacyc
  have hsub : List.Subperm
      (Graph.kahnLoop g g.adj.length (Graph.initInDegrees g) (Graph.kahnSeed g) [])
      g.nodes :=
    List.Nodup.subperm hnd (fun n hn => hmem n hn)
  have hsub2 : List.Subperm g.nodes
      (Graph.kahnLoop g g.adj.length (Graph.initInDegrees g) (Graph.kahnSeed g) []) :=
    List.Nodup.subperm hwf.1 (fun n hn => hcompl n hn)
  have hlen : (Graph.kahnLoop g g.adj.length (Graph.initInDegrees g)
      (Graph.kahnSeed g) []).length = g.nodes.length :=
    Nat.le_antisymm hsub.length_le hsub2.length_le
  refine ⟨Graph.kahnLoop g g.adj.length (Graph.initInDegrees g) (Graph.kahnSeed g) [],
    ?_, hlen, ?_⟩
  · unfold Graph.topologicalSort
    rw [if_neg (by omega)]
  · intro u v he
    have hv := hcompl v (Graph.hasEdge_dst_mem g hwf u v he)
    obtain ⟨hu, hidx⟩ := horder u v he hv
    exact ⟨hu, hv, hidx⟩

/-- The concrete acyclic diamond graph used by the C3 witness, built by
    addEdge like the source test (A→B, A→C, B→D, C→D); metadata Unit. -/
def c3graph : Graph Unit :=
  ((((Graph.mk []).addEdge "A" "B" ()).addEdge "A" "C" ()).addEdge
    "B" "D" ()).addEdge "C" "D" ()

/-- C3 witness: the diamond graph is well-formed and acyclic (certified by
    its own returned order), and the claim instantiates on it. -/
theorem c3_topologicalSort_acyclic_witness :
    ∃ L, c3graph.topologicalSort = .ok L ∧ L.length = c3graph.nodes.length ∧
      ∀ u v, c3graph.hasEdge u v → u ∈ L ∧ v ∈ L ∧ idxOf L u < idxOf L v :=
  c3_topologicalSort_acyclic c3graph (by decide)
    (not_hasCycle_of_topOrder_edges c3graph ["A", "B", "C", "D"] (by decide))

-- ===========================================================================
-- CLAIM THEOREM (C4)
-- ===========================================================================

/-- C4: for every well-formed directed graph containing at least one
    cycle, detectCycles() returns at least one cycle, every returned cycle
    is non-empty, and topologicalSort() throws the configuration error
    instead of returning an order. -/
theorem c4_cycles_detected {β : Type} (g : Graph β) (hwf : g.WF)
    (hcyc : g.HasCycle) :
    g.detectCycles ≠ [] ∧ (∀ c ∈ g.detectCycles, c ≠ []) ∧
      g.topologicalSort =
        .error "Cycle detected in dependency graph - topological sort impossible" := by
  refine ⟨?_, Graph.detectCycles_members_nonempty g hwf,
    Graph.topologicalSort_error_of_cycle g hwf hcyc⟩
  intro hempty
  exact Graph.detectCycles_empty_acyclic g hwf hempty hcyc

/-- The concrete two-node cyclic graph used by the C4 witness, built by
    addEdge like the source test (A→B, B→A); metadata Unit. -/
def c4graph : Graph Unit :=
  ((Graph.mk []).addEdge "A" "B" ()).addEdge "B" "A" ()

/-- C4 witness: the two-node graph is well-formed and has the cycle
    A→B→A, and the claim instantiates on it. -/
theorem c4_cycles_detected_witness :
    c4graph.detectCycles ≠ [] ∧ (∀ c ∈ c4graph.detectCycles, c ≠ []) ∧
      c4graph.topologicalSort =
        .error "Cycle detected in dependency graph - topological sort impossible" :=
  c4_cycles_detected c4graph (by decide)
    ⟨"A", Graph.Reaches.cons (v := "B") (by decide) (Graph.Reaches.single (by decide))⟩

/-- The one-product BOM used by the C6 witness. -/
def c6bom : List (String × BomItem) := [("A", { productId := "A", components := [] })]

/-- C6 witness: on the concrete one-product BOM, the first call stores the
    result and the second call is a pure cache hit returning the
    structurally equal explosion with zero expansions. -/
theorem c6_explodeBOM_idempotent_witness :
    lookupA [("A", Explosion.mk "A" true [] 0)] "A" = some (Explosion.mk "A" true [] 0) ∧
    explodeBOM c6bom 5 "A" 0 [] [("A", Explosion.mk "A" true [] 0)] =
      .ok (Explosion.mk "A" true [] 0, [("A", Explosion.mk "A" true [] 0)], 0) :=
  (c6_explodeBOM_idempotent c6bom [] "A" 5 5 (Explosion.mk "A" true [] 0)
    [("A", Explosion.mk "A" true [] 0)] 1 (by rw [explodeBOM]; rfl)).1
    { productId := "A", components := [] } rfl

/-- C6 counterexample: the claim fails as stated for a productId absent
    from the BOM index (here the empty BOM, which trivially passed
    acyclicity validation): the first call does not store its raw-material
    result, so the cache stays empty and the second call is not answered
    from the cache — it performs one fresh expansion (step count 1, not
    0) — even though its result is structurally equal. -/
theorem c6_explodeBOM_counterexample :
    explodeBOM ([] : List (String × BomItem)) 5 "X" 0 [] [] =
      .ok (Explosion.mk "X" true [] 0, [], 1) ∧
    lookupA ([] : ExplosionCache) "X" = none ∧ (1 : Nat) ≠ 0 := by
  refine ⟨?_, rfl, by decide⟩
  rw [explodeBOM]
  rfl

-- ===========================================================================
-- findAllPaths (index.js lines 117-141)
-- ===========================================================================

namespace Graph

variable {β : Type}

/-- The inner dfs closure of findAllPaths(start, end, maxDepth).  A path
    is the JS array of {node, edge} entries: (node, some edge) for pushed
    hops, (start, none) for the seed entry.  The code prunes with
    `if (path.length > maxDepth) return` BEFORE the end-node check, then
    records a copy of the path on reaching end, and otherwise iterates
    over the neighbors, skipping visited ones; the visited set is
    restored after each recursive call, so each neighbor explores with
    the caller's visited list extended by its own node only. -/
def findPathsDfs (g : Graph β) (maxDepth : Nat) (endNode : String)
    (current : String) (path : List (String × Option (String × β)))
    (visited : List String) : List (List (String × Option (String × β))) :=
  if h : path.length > maxDepth then []
  else if current = endNode then [path]
  else (g.neighborsOf current).foldl (fun acc e =>
    acc ++ (if e.1 ∈ visited then []
      else findPathsDfs g maxDepth endNode e.1 (path ++ [(e.1, some e)])
        (setAdd visited e.1))) []
termination_by maxDepth + 1 - path.length
decreasing_by simp only [List.length_append, List.length_cons, List.length_nil]; omega

/-- findAllPaths(start, end, maxDepth): seed the dfs with the one-entry
    path [(start, null)] and visited = {start}.  (The JS default for
    maxDepth is 10.) -/
def findAllPaths (g : Graph β) (start endNode : String) (maxDepth : Nat) :
    List (List (String × Option (String × β))) :=
  findPathsDfs g maxDepth endNode start [(start, none)] [start]

/-- A walk along recorded edges: each hop is a full (node, metadata)
    entry of the previous node's adjacency row, ending at endNode. -/
def EdgeWalk (g : Graph β) : String → List (String × β) → String → Prop
  | u, [], e => u = e
  | u, v :: rest, e => v ∈ g.neighborsOf u ∧ EdgeWalk g v.1 rest e

instance edgeWalkDecidable [DecidableEq β] (g : Graph β) :
    ∀ (u : String) (hops : List (String × β)) (e : String),
      Decidable (EdgeWalk g u hops e)
  | u, [], e => inferInstanceAs (Decidable (u = e))
  | _u, v :: rest, e =>
    haveI : Decidable (EdgeWalk g v.1 rest e) := edgeWalkDecidable g v.1 rest e
    inferInstanceAs (Decidable (_ ∧ _))

end Graph

theorem mem_setAdd (s : List String) (k a : String) :
    a ∈ setAdd s k ↔ a ∈ s ∨ a = k := by
  unfold setAdd
  split_ifs with h
  · constructor
    · exact Or.inl
    · rintro (h1 | rfl)
      · exact h1
      · exact h
  · simp

theorem mem_foldl_append_iff {α γ : Type} (f : γ → List α) :
    ∀ (ns : List γ) (init : List α) (x : α),
      x ∈ ns.foldl (fun acc e => acc ++ f e) init ↔
        x ∈ init ∨ ∃ e ∈ ns, x ∈ f e := by
  intro ns
  induction ns with
  | nil =>
    intro init x
    simp
  | cons e rest ih =>
    intro init x
    rw [List.foldl_cons, ih]
    simp only [List.mem_append, List.mem_cons]
    constructor
    · rintro ((h | h) | ⟨w, hw, hx⟩)
      · exact Or.inl h
      · exact Or.inr ⟨e, Or.inl rfl, h⟩
      · exact Or.inr ⟨w, Or.inr hw, hx⟩
    · rintro (h | ⟨w, (rfl | hw), hx⟩)
      · exact Or.inl (Or.inl h)
      · exact Or.inl (Or.inr hx)
      · exact Or.inr ⟨w, hw, hx⟩

namespace Graph

variable {β : Type}

/-- Completeness of the dfs: every edge walk to endNode whose nodes are
    fresh (unvisited, no duplicates, endNode only at the very end) and
    whose completed path fits the length guard is found. -/
theorem findPathsDfs_complete (g : Graph β) (maxDepth : Nat) (endNode : String) :
    ∀ (hops : List (String × β)) (current : String)
      (path : List (String × Option (String × β))) (visited : List String),
      EdgeWalk g current hops endNode →
      path.length + hops.length ≤ maxDepth →
      (∀ v ∈ hops, v.1 ∉ visited) →
      (hops.map Prod.fst).Nodup →
      (∀ u ∈ (current :: hops.map Prod.fst).dropLast, u ≠ endNode) →
      path ++ hops.map (fun v => (v.1, some v)) ∈
        findPathsDfs g maxDepth endNode current path visited := by
  intro hops
  induction hops with
  | nil =>
    intro current path visited hwalk hlen _ _ _
    rw [findPathsDfs, dif_neg (by omega)]
    rw [if_pos (show current = endNode from hwalk)]
    simp
  | cons v rest ih =>
    intro current path visited hwalk hlen hvis hnd hne
    obtain ⟨hmem, hwalk2⟩ := hwalk
    have hcur : current ≠ endNode := by
      apply hne current
      rw [List.map_cons]
      show current ∈ current :: (v.1 :: rest.map Prod.fst).dropLast
      exact List.mem_cons_self _ _
    rw [findPathsDfs, dif_neg (by simp at hlen ⊢; omega), if_neg hcur]
    apply (mem_foldl_append_iff _ _ _ _).mpr
    right
    refine ⟨v, hmem, ?_⟩
    rw [if_neg (hvis v (List.mem_cons_self _ _))]
    have hlen2 : (path ++ [(v.1, some v)]).length + rest.length ≤ maxDepth := by
      simp at hlen ⊢
      omega
    have hvis2 : ∀ w ∈ rest, w.1 ∉ setAdd visited v.1 := by
      intro w hw hcontra
      rcases (mem_setAdd _ _ _).mp hcontra with h1 | h1
      · exact hvis w (List.mem_cons_of_mem _ hw) h1
      · have : v.1 ∉ rest.map Prod.fst := by
          rw [List.map_cons] at hnd
          exact (List.nodup_cons.mp hnd).1
        exact this (List.mem_map.mpr ⟨w, hw, h1⟩)
    have hnd2 : (rest.map Prod.fst).Nodup := by
      rw [List.map_cons] at hnd
      exact (List.nodup_cons.mp hnd).2
    have hne2 : ∀ u ∈ (v.1 :: rest.map Prod.fst).dropLast, u ≠ endNode := by
      intro u hu
      apply hne u
      rw [List.map_cons]
      show u ∈ current :: (v.1 :: rest.map Prod.fst).dropLast
      exact List.mem_cons_of_mem _ hu
    have hrec := ih v.1 (path ++ [(v.1, some v)]) (setAdd visited v.1)
      hwalk2 hlen2 hvis2 hnd2 hne2
    simpa [List.append_assoc] using hrec

/-- Soundness of the dfs: every returned path extends the accumulator by
    an unvisited, duplicate-free edge walk ending at endNode in which
    endNode occurs only at the very end, and respects the length guard. -/
theorem findPathsDfs_sound (g : Graph β) (maxDepth : Nat) (endNode : String) :
    ∀ (k : Nat) (current : String)
      (path : List (String × Option (String × β))) (visited : List String),
      maxDepth + 1 - path.length ≤ k →
      ∀ p ∈ findPathsDfs g maxDepth endNode current path visited,
        ∃ hops : List (String × β),
          p = path ++ hops.map (fun v => (v.1, some v)) ∧
          EdgeWalk g current hops endNode ∧
          path.length + hops.length ≤ maxDepth ∧
          (∀ v ∈ hops, v.1 ∉ visited) ∧
          (hops.map Prod.fst).Nodup ∧
          (∀ u ∈ (current :: hops.map Prod.fst).dropLast, u ≠ endNode) := by
  intro k
  induction k with
  | zero =>
    intro current path visited hk p hp
    rw [findPathsDfs, dif_pos (by omega)] at hp
    simp at hp
  | succ k ih =>
    intro current path visited hk p hp
    rw [findPathsDfs] at hp
    by_cases hg : path.length > maxDepth
    · rw [dif_pos hg] at hp
      simp at hp
    · rw [dif_neg hg] at hp
      by_cases hc : current = endNode
      · rw [if_pos hc] at hp
        simp at hp
        subst hp
        refine ⟨[], by simp, hc, by simpa using Nat.le_of_not_lt hg, ?_, by simp, ?_⟩
        · intro w hw
          simp at hw
        · intro u hu
          simp at hu
      · rw [if_neg hc] at hp
        rcases (mem_foldl_append_iff _ _ _ _).mp hp with h0 | ⟨e, hens, hpe⟩
        · simp at h0
        · by_cases hv : e.1 ∈ visited
          · rw [if_pos hv] at hpe
            simp at hpe
          · rw [if_neg hv] at hpe
            obtain ⟨hops2, heq, hwalk2, hlen2, hvis2, hnd2, hne2⟩ :=
              ih e.1 (path ++ [(e.1, some e)]) (setAdd visited e.1)
                (by simp; omega) p hpe
            refine ⟨e :: hops2, ?_, ⟨hens, hwalk2⟩, ?_, ?_, ?_, ?_⟩
            · rw [heq]
              simp [List.append_assoc]
            · simp at hlen2 ⊢
              omega
            · intro w hw
              rcases List.mem_cons.mp hw with h1 | h1
              · rw [h1]
                exact hv
              · intro hwv
                exact hvis2 w h1 ((mem_setAdd _ _ _).mpr (Or.inl hwv))
            · rw [List.map_cons, List.nodup_cons]
              refine ⟨?_, hnd2⟩
              intro hmemc
              obtain ⟨w, hw, hweq⟩ := List.mem_map.mp hmemc
              exact hvis2 w hw ((mem_setAdd _ _ _).mpr (Or.inr hweq))
            · intro u hu
              rw [List.map_cons] at hu
              have hu2 : u ∈ current :: (e.1 :: hops2.map Prod.fst).dropLast := hu
              rcases List.mem_cons.mp hu2 with h1 | h1
              · rw [h1]
                exact hc
              · exact hne2 u h1

end Graph

-- ===========================================================================
-- CLAIM THEOREMS (C5)
-- ===========================================================================

/-- The one-edge graph A→B used by the C5 counterexample. -/
def c5graph : Graph Unit := (Graph.mk []).addEdge "A" "B" ()

/-- C5 counterexample: the claim fails as stated for a path of exactly
    maxDepth hops.  In the graph A→B the walk A→B is a simple
    start-to-end path of 1 hop, yet findAllPaths("A", "B", 1) returns the
    empty list: the JS length guard counts the seed entry, so the
    completed path has path.length = 2 > 1 and is pruned before the
    end-node check. -/
theorem c5_findAllPaths_counterexample :
    Graph.EdgeWalk c5graph "A" [("B", ())] "B" ∧ (["A", "B"] : List String).Nodup ∧
      c5graph.findAllPaths "A" "B" 1 = [] := by
  refine ⟨by decide, by decide, ?_⟩
  show Graph.findPathsDfs c5graph 1 "B" "A" [("A", none)] ["A"] = []
  rw [Graph.findPathsDfs, dif_neg (by decide), if_neg (by decide)]
  have hn : c5graph.neighborsOf "A" = [("B", ())] := by decide
  rw [hn, List.foldl_cons, List.foldl_nil, if_neg (by decide), List.nil_append]
  rw [Graph.findPathsDfs, dif_pos (by decide)]

/-- C5 (amended): findAllPaths(start, end, maxDepth) enumerates exactly
    the simple start-to-end paths of at most maxDepth − 1 hops (the
    length guard counts the seed entry, so a path of maxDepth hops is
    pruned before expansion): every simple walk of hops + 1 ≤ maxDepth
    appears in the returned list, and every returned path is such a
    walk. -/
theorem c5_findAllPaths_bounded {β : Type} (g : Graph β) (start endNode : String)
    (maxDepth : Nat) (hops : List (String × β))
    (hwalk : Graph.EdgeWalk g start hops endNode)
    (hlen : hops.length + 1 ≤ maxDepth)
    (hnd : (start :: hops.map Prod.fst).Nodup)
    (hne : ∀ u ∈ (start :: hops.map Prod.fst).dropLast, u ≠ endNode) :
    (start, none) :: hops.map (fun v => (v.1, some v)) ∈
      g.findAllPaths start endNode maxDepth ∧
    ∀ p ∈ g.findAllPaths start endNode maxDepth,
      ∃ hops2 : List (String × β),
        p = (start, none) :: hops2.map (fun v => (v.1, some v)) ∧
        Graph.EdgeWalk g start hops2 endNode ∧ hops2.length + 1 ≤ maxDepth ∧
        (start :: hops2.map Prod.fst).Nodup ∧
        ∀ u ∈ (start :: hops2.map Prod.fst).dropLast, u ≠ endNode := by
  obtain ⟨hstart, hmapnd⟩ := List.nodup_cons.mp hnd
  constructor
  · have hvis : ∀ v ∈ hops, v.1 ∉ ([start] : List String) := by
      intro v hv hcontra
      simp at hcontra
      exact hstart (List.mem_map.mpr ⟨v, hv, hcontra⟩)
    have := Graph.findPathsDfs_complete g maxDepth endNode hops start
      [(start, none)] [start] hwalk (by simp; omega) hvis hmapnd hne
    simpa using this
  · intro p hp
    obtain ⟨hops2, heq, hwalk2, hlen2, hvis2, hnd2, hne2⟩ :=
      Graph.findPathsDfs_sound g maxDepth endNode (maxDepth + 1) start
        [(start, none)] [start] (by simp) p hp
    refine ⟨hops2, by simpa using heq, hwalk2, by simp at hlen2; omega, ?_, hne2⟩
    rw [List.nodup_cons]
    refine ⟨?_, hnd2⟩
    intro hmemc
    obtain ⟨w, hw, hweq⟩ := List.mem_map.mp hmemc
    exact hvis2 w hw (by simp [hweq])

/-- The two-hop chain A→B→C used by the C5 witness. -/
def c5wgraph : Graph Unit :=
  ((Graph.mk []).addEdge "A" "B" ()).addEdge "B" "C" ()

/-- C5 witness: on the chain A→B→C with the default maxDepth 10, the
    two-hop walk (2 + 1 ≤ 10) is found and every returned path is a
    bounded simple walk. -/
theorem c5_findAllPaths_bounded_witness :
    ("A", (none : Option (String × Unit))) ::
        ([("B", ()), ("C", ())].map (fun v => (v.1, some v))) ∈
      c5wgraph.findAllPaths "A" "C" 10 ∧
    ∀ p ∈ c5wgraph.findAllPaths "A" "C" 10,
      ∃ hops2 : List (String × Unit),
        p = ("A", none) :: hops2.map (fun v => (v.1, some v)) ∧
        Graph.EdgeWalk c5wgraph "A" hops2 "C" ∧ hops2.length + 1 ≤ 10 ∧
        ("A" :: hops2.map Prod.fst).Nodup ∧
        ∀ u ∈ ("A" :: hops2.map Prod.fst).dropLast, u ≠ "C" :=
  c5_findAllPaths_bounded c5wgraph "A" "C" 10 [("B", ()), ("C", ())]
    (by decide) (by decide) (by decide) (by decide)

-- ===========================================================================
-- EntityManager (index.js lines 452-501) and
-- calculateTransferPrice (index.js lines 941-1019)
-- ===========================================================================

/-- A configured entity ({id, type, country}). -/
structure Entity where
  id : String
  type : String
  country : String
  deriving Repr, DecidableEq

/-- The metadata the EntityManager constructor stores on a transfer-graph
    edge ({itemTypes, markupType, markupValue}). -/
structure RouteMeta where
  itemTypes : List String
  markupType : String
  markupValue : ℚ
  deriving Repr, DecidableEq

/-- EntityManager state: the id-keyed entity Map and the transfer
    Graph. -/
structure EntityManager where
  entities : List (String × Entity)
  transferGraph : Graph RouteMeta

/-- The EntityManager constructor: register every entity in the Map and
    as a graph node, then add one edge per transfer route carrying the
    picked metadata fields. -/
def mkEntityManager (entities : List Entity) (transferRoutes : List Route) :
    EntityManager :=
  { entities := entities.foldl (fun m e => setA m e.id e) [],
    transferGraph := transferRoutes.foldl
      (fun g r => g.addEdge r.source r.dest ⟨r.itemTypes, r.markupType, r.markupValue⟩)
      (entities.foldl (fun g e => g.addNode e.id) (Graph.mk [])) }

namespace EntityManager

def getEntity (em : EntityManager) (entityId : String) : Option Entity :=
  lookupA em.entities entityId

/-- getAllEntities(): Array.from(this.entities.values()), insertion
    order. -/
def getAllEntities (em : EntityManager) : List Entity :=
  em.entities.map Prod.snd

def getManufacturingEntities (em : EntityManager) : List Entity :=
  em.getAllEntities.filter (fun e => e.type = "manufacturing")

def getDistributionEntities (em : EntityManager) : List Entity :=
  em.getAllEntities.filter (fun e => e.type = "distribution")

/-- findTransferPaths(from, to): findAllPaths with the default
    maxDepth 10. -/
def findTransferPaths (em : EntityManager) (fromEntity toEntity : String) :
    List (List (String × Option (String × RouteMeta))) :=
  em.transferGraph.findAllPaths fromEntity toEntity 10

/-- isCrossBorder(from, to): truthy exactly when both entities exist and
    their countries differ (the JS `from && to && from.country !==
    to.country`). -/
def isCrossBorder (em : EntityManager) (fromEntityId toEntityId : String) : Bool :=
  match em.getEntity fromEntityId, em.getEntity toEntityId with
  | some f, some t => f.country != t.country
  | _, _ => false

end EntityManager

/-- getCostKey(productId, entityId, period) = "productId:entityId:period"
    (index.js line 199).  The costs Map of CostState is keyed by these
    strings; the JS `_key` bookkeeping property added by setCost is
    never read by the functions below and is omitted from CostRecord. -/
def getCostKey (productId entityId period : String) : String :=
  productId ++ ":" ++ entityId ++ ":" ++ period

/-- The sequential duty-rate ifs of calculateTransferPrice: default
    0.03, US 0.025, DE 0.04. -/
def dutyRateFor (country : String) : ℚ :=
  if country = "US" then 1/40 else if country = "DE" then 1/25 else 3/100

/-- The hop markup: cost-plus multiplies by (1 + markupValue),
    resale-minus by (1 + markupValue * 0.5), any other markupType leaves
    the running cost unchanged. -/
def applyMarkup (md : RouteMeta) (cost : ℚ) : ℚ :=
  if md.markupType = "cost-plus" then cost * (1 + md.markupValue)
  else if md.markupType = "resale-minus" then cost * (1 + md.markupValue * (1/2))
  else cost

/-- The customs-duty step: when the hop crosses a border, add
    transferCost * dutyRate of the destination entity's country (the
    entity exists whenever isCrossBorder holds; "" stands for the
    unreachable missing-entity read). -/
def applyDuty (em : EntityManager) (prevEntity node : String) (cost : ℚ) : ℚ :=
  if em.isCrossBorder prevEntity node then
    cost + cost * dutyRateFor (((em.getEntity node).map Entity.country).getD "")
  else cost

/-- step.edge of a recorded path entry.  The walk below starts at
    index 1, so the seed entry's null edge is never read; the default
    metadata stands for that unreachable read. -/
def stepMeta (e : Option (String × RouteMeta)) : RouteMeta :=
  (e.map Prod.snd).getD ⟨[], "", 0⟩

/-- The `for (let i = 1; i < path.length; i++)` walk of
    calculateTransferPrice: apply the hop markup, then the cross-border
    duty, and push {entity, cost, markup} onto pathCosts. -/
def transferHops (em : EntityManager) (prevEntity : String)
    (steps : List (String × Option (String × RouteMeta)))
    (cost : ℚ) (pathCosts : List PathStep) : ℚ × List PathStep :=
  match steps with
  | [] => (cost, pathCosts)
  | step :: rest =>
    transferHops em step.1 rest
      (applyDuty em prevEntity step.1 (applyMarkup (stepMeta step.2) cost))
      (pathCosts ++ [⟨step.1,
        applyDuty em prevEntity step.1 (applyMarkup (stepMeta step.2) cost),
        some (stepMeta step.2).markupValue⟩])

/-- Evaluate one candidate path: transferCost starts at the source
    record's totalCost and pathCosts at [{entity: mfgId, cost}]; the
    walk starts at path[1] with path[0].node as the previous entity. -/
def evalPath (em : EntityManager) (mfgId : String) (total : ℚ)
    (path : List (String × Option (String × RouteMeta))) : ℚ × List PathStep :=
  match path with
  | [] => (total, [⟨mfgId, total, none⟩])
  | first :: rest => transferHops em first.1 rest total [⟨mfgId, total, none⟩]

/-- One iteration of the inner path loop: skip if the source entity has
    no stored cost (`if (!sourceCost) continue`), otherwise keep the
    strictly cheaper of the running best and this path's final cost
    (bestCost starts at Infinity, modelled by none). -/
def considerPath (em : EntityManager) (costs : List (String × CostRecord))
    (productId period mfgId : String)
    (best : Option (ℚ × List PathStep × String))
    (path : List (String × Option (String × RouteMeta))) :
    Option (ℚ × List PathStep × String) :=
  match lookupA costs (getCostKey productId mfgId period) with
  | none => best
  | some sourceCost =>
    match best with
    | none => some ((evalPath em mfgId sourceCost.totalCost path).1,
        (evalPath em mfgId sourceCost.totalCost path).2, mfgId)
    | some b =>
      if (evalPath em mfgId sourceCost.totalCost path).1 < b.1 then
        some ((evalPath em mfgId sourceCost.totalCost path).1,
          (evalPath em mfgId sourceCost.totalCost path).2, mfgId)
      else some b

/-- The two nested selection loops of calculateTransferPrice over
    (manufacturing entity, transfer path) pairs. -/
def selectBest (em : EntityManager) (costs : List (String × CostRecord))
    (productId destEntityId period : String) :
    Option (ℚ × List PathStep × String) :=
  em.getManufacturingEntities.foldl (fun best mfg =>
    (em.findTransferPaths mfg.id destEntityId).foldl
      (considerPath em costs productId period mfg.id) best) none

/-- calculateTransferPrice(productId, destEntityId, period): early
    return unless the destination is a distribution entity; run the
    selection loops; if a best path was found, re-read the best source
    cost and store the transfer breakdown under the destination's cost
    key (the re-read cannot miss: a best source always has a stored
    cost). -/
def calculateTransferPrice (em : EntityManager)
    (costs : List (String × CostRecord))
    (productId destEntityId period : String) : List (String × CostRecord) :=
  match em.getEntity destEntityId with
  | none => costs
  | some destEntity =>
    if destEntity.type ≠ "distribution" then costs
    else
      match selectBest em costs productId destEntityId period with
      | none => costs
      | some best =>
        match lookupA costs (getCostKey productId best.2.2 period) with
        | none => costs
        | some sourceCost =>
          setA costs (getCostKey productId destEntityId period)
            (transferBreakdown sourceCost best.1 best.2.2 best.2.1)

/-- calculateTransferPrice together with the this.warnings instance
    field of CostCalculator: the method body never references
    this.warnings (its only occurrences in the source are the
    constructor's `this.warnings = []` and the final
    `results.warnings = this.warnings` copy in calculate()), so the
    warnings list passes through unchanged. -/
def calculateTransferPriceW (em : EntityManager)
    (costs : List (String × CostRecord)) (warnings : List String)
    (productId destEntityId period : String) :
    List (String × CostRecord) × List String :=
  (calculateTransferPrice em costs productId destEntityId period, warnings)

/-- All candidate (finalCost, pathCosts, sourceEntity) triples in the
    enumeration order of the two nested loops; a manufacturing entity
    without a stored source cost contributes none. -/
def candidates (em : EntityManager) (costs : List (String × CostRecord))
    (productId destEntityId period : String) :
    List (ℚ × List PathStep × String) :=
  em.getManufacturingEntities.flatMap (fun mfg =>
    (em.findTransferPaths mfg.id destEntityId).filterMap (fun path =>
      match lookupA costs (getCostKey productId mfg.id period) with
      | none => none
      | some sourceCost => some ((evalPath em mfg.id sourceCost.totalCost path).1,
          (evalPath em mfg.id sourceCost.totalCost path).2, mfg.id)))

/-- The strict-improvement update `if (transferCost < bestCost)`. -/
def betterOf (b c : ℚ × List PathStep × String) : ℚ × List PathStep × String :=
  if c.1 < b.1 then c else b

/-- betterOf lifted through the Infinity start. -/
def optBetter (best : Option (ℚ × List PathStep × String))
    (c : ℚ × List PathStep × String) : Option (ℚ × List PathStep × String) :=
  match best with
  | none => some c
  | some b => some (betterOf b c)

theorem considerPath_eq (em : EntityManager) (costs : List (String × CostRecord))
    (productId period mfgId : String) (best : Option (ℚ × List PathStep × String))
    (path : List (String × Option (String × RouteMeta))) :
    considerPath em costs productId period mfgId best path =
      match lookupA costs (getCostKey productId mfgId period) with
      | none => best
      | some sourceCost =>
        optBetter best ((evalPath em mfgId sourceCost.totalCost path).1,
          (evalPath em mfgId sourceCost.totalCost path).2, mfgId) := by
  unfold considerPath optBetter betterOf
  cases lookupA costs (getCostKey productId mfgId period) with
  | none => rfl
  | some sc =>
    cases best with
    | none => rfl
    | some b =>
      simp only []
      split_ifs <;> rfl

theorem foldl_considerPath (em : EntityManager)
    (costs : List (String × CostRecord)) (productId period mfgId : String) :
    ∀ (paths : List (List (String × Option (String × RouteMeta))))
      (best : Option (ℚ × List PathStep × String)),
      paths.foldl (considerPath em costs productId period mfgId) best =
      (paths.filterMap (fun path =>
        match lookupA costs (getCostKey productId mfgId period) with
        | none => none
        | some sourceCost => some ((evalPath em mfgId sourceCost.totalCost path).1,
            (evalPath em mfgId sourceCost.totalCost path).2, mfgId))).foldl
        optBetter best := by
  cases hlk : lookupA costs (getCostKey productId mfgId period) with
  | none =>
    intro paths
    induction paths with
    | nil =>
      intro best
      rfl
    | cons p rest ih =>
      intro best
      rw [List.foldl_cons, List.filterMap_cons, considerPath_eq, hlk]
      simp only []
      exact ih best
  | some sc =>
    intro paths
    induction paths with
    | nil =>
      intro best
      rfl
    | cons p rest ih =>
      intro best
      rw [List.foldl_cons, List.filterMap_cons, considerPath_eq, hlk]
      simp only []
      rw [List.foldl_cons]
      exact ih _

theorem selectBest_fold (em : EntityManager) (costs : List (String × CostRecord))
    (productId destEntityId period : String) :
    ∀ (mfgs : List Entity) (best : Option (ℚ × List PathStep × String)),
      mfgs.foldl (fun best mfg =>
        (em.findTransferPaths mfg.id destEntityId).foldl
          (considerPath em costs productId period mfg.id) best) best =
      (mfgs.flatMap (fun mfg =>
        (em.findTransferPaths mfg.id destEntityId).filterMap (fun path =>
          match lookupA costs (getCostKey productId mfg.id period) with
          | none => none
          | some sourceCost => some ((evalPath em mfg.id sourceCost.totalCost path).1,
              (evalPath em mfg.id sourceCost.totalCost path).2, mfg.id)))).foldl
        optBetter best := by
  intro mfgs
  induction mfgs with
  | nil =>
    intro best
    rfl
  | cons m rest ih =>
    intro best
    rw [List.foldl_cons, List.flatMap_cons, List.foldl_append]
    rw [foldl_considerPath]
    exact ih _

/-- The selection loops compute the option-min fold over the candidate
    list. -/
theorem selectBest_eq (em : EntityManager) (costs : List (String × CostRecord))
    (productId destEntityId period : String) :
    selectBest em costs productId destEntityId period =
      (candidates em costs productId destEntityId period).foldl optBetter none :=
  selectBest_fold em costs productId destEntityId period
    em.getManufacturingEntities none

theorem foldl_optBetter_some (l : List (ℚ × List PathStep × String)) :
    ∀ (b : ℚ × List PathStep × String),
      l.foldl optBetter (some b) = some (l.foldl betterOf b) := by
  induction l with
  | nil =>
    intro b
    rfl
  | cons c rest ih =>
    intro b
    rw [List.foldl_cons, List.foldl_cons]
    exact ih _

/-- The strict-improvement fold keeps the first occurrence of the
    minimum: the result is no larger than the seed b and every list
    element, and everything enumerated strictly before it was strictly
    more expensive. -/
theorem foldl_betterOf_first_min (l : List (ℚ × List PathStep × String)) :
    ∀ (b : ℚ × List PathStep × String),
      (∀ c ∈ b :: l, (l.foldl betterOf b).1 ≤ c.1) ∧
      ∃ l1 l2, b :: l = l1 ++ (l.foldl betterOf b) :: l2 ∧
        ∀ c ∈ l1, (l.foldl betterOf b).1 < c.1 := by
  induction l with
  | nil =>
    intro b
    refine ⟨?_, [], [], rfl, ?_⟩
    · intro c hc
      simp at hc
      rw [hc]
      exact le_refl _
    · intro c hc
      simp at hc
  | cons c rest ih =>
    intro b
    rw [List.foldl_cons]
    obtain ⟨hmin, l1, l2, hsplit, hpre⟩ := ih (betterOf b c)
    have hhead : (rest.foldl betterOf (betterOf b c)).1 ≤ (betterOf b c).1 :=
      hmin _ (List.mem_cons_self _ _)
    by_cases hbc : c.1 < b.1
    · have hbcv : betterOf b c = c := if_pos hbc
      rw [hbcv] at hmin hsplit hpre hhead ⊢
      refine ⟨?_, ?_⟩
      · intro x hx
        rcases List.mem_cons.mp hx with h1 | h1
        · rw [h1]
          calc (rest.foldl betterOf c).1 ≤ c.1 := hhead
            _ ≤ b.1 := le_of_lt hbc
        · exact hmin x h1
      · refine ⟨b :: l1, l2, ?_, ?_⟩
        · rw [List.cons_append, ← hsplit]
        · intro x hx
          rcases List.mem_cons.mp hx with h1 | h1
          · rw [h1]
            exact lt_of_le_of_lt hhead hbc
          · exact hpre x h1
    · have hbcv : betterOf b c = b := if_neg hbc
      rw [hbcv] at hmin hsplit hpre hhead ⊢
      have hble : b.1 ≤ c.1 := le_of_not_lt hbc
      refine ⟨?_, ?_⟩
      · intro x hx
        rcases List.mem_cons.mp hx with h1 | h1
        · rw [h1]
          exact hmin b (List.mem_cons_self _ _)
        · rcases List.mem_cons.mp h1 with h2 | h2
          · rw [h2]
            exact le_trans hhead hble
          · exact hmin x (List.mem_cons_of_mem _ h2)
      · cases l1 with
        | nil =>
          simp only [List.nil_append] at hsplit
          rw [List.cons.injEq] at hsplit
          refine ⟨[], c :: rest, ?_, ?_⟩
          · rw [List.nil_append, ← hsplit.1]
          · intro x hx
            simp at hx
        | cons a l1t =>
          rw [List.cons_append, List.cons.injEq] at hsplit
          have hfb : (rest.foldl betterOf b).1 < b.1 := by
            have := hpre a (List.mem_cons_self _ _)
            rw [← hsplit.1] at this
            exact this
          refine ⟨b :: c :: l1t, l2, ?_, ?_⟩
          · rw [List.cons_append, List.cons_append]
            conv_lhs => rw [hsplit.2]
          · intro x hx
            rcases List.mem_cons.mp hx with h1 | h1
            · rw [h1]
              exact hfb
            · rcases List.mem_cons.mp h1 with h2 | h2
              · rw [h2]
                exact lt_of_lt_of_le hfb hble
              · exact hpre x (List.mem_cons_of_mem _ h2)

/-- Every candidate's source entity has a stored cost, and the
    candidate's data comes from evaluating one of its transfer paths. -/
theorem candidates_mem_lookup (em : EntityManager)
    (costs : List (String × CostRecord)) (productId destEntityId period : String)
    (b : ℚ × List PathStep × String)
    (hb : b ∈ candidates em costs productId destEntityId period) :
    ∃ sourceCost, lookupA costs (getCostKey productId b.2.2 period) =
      some sourceCost := by
  unfold candidates at hb
  obtain ⟨mfg, _, hmem⟩ := List.mem_flatMap.mp hb
  obtain ⟨path, _, hf⟩ := List.mem_filterMap.mp hmem
  cases hlk : lookupA costs (getCostKey productId mfg.id period) with
  | none =>
    rw [hlk] at hf
    simp at hf
  | some sc =>
    rw [hlk] at hf
    simp only [Option.some.injEq] at hf
    refine ⟨sc, ?_⟩
    rw [← hf]
    exact hlk

/-- If every manufacturing entity lacks either a stored cost or a path,
    no candidate exists. -/
theorem candidates_nil (em : EntityManager) (costs : List (String × CostRecord))
    (productId destEntityId period : String)
    (h : ∀ mfg ∈ em.getManufacturingEntities,
      lookupA costs (getCostKey productId mfg.id period) = none ∨
      em.findTransferPaths mfg.id destEntityId = []) :
    candidates em costs productId destEntityId period = [] := by
  unfold candidates
  have hgen : ∀ (mfgs : List Entity),
      (∀ mfg ∈ mfgs, lookupA costs (getCostKey productId mfg.id period) = none ∨
        em.findTransferPaths mfg.id destEntityId = []) →
      mfgs.flatMap (fun mfg =>
        (em.findTransferPaths mfg.id destEntityId).filterMap (fun path =>
          match lookupA costs (getCostKey productId mfg.id period) with
          | none => none
          | some sourceCost => some ((evalPath em mfg.id sourceCost.totalCost path).1,
              (evalPath em mfg.id sourceCost.totalCost path).2, mfg.id))) = [] := by
    intro mfgs
    induction mfgs with
    | nil =>
      intro _
      rfl
    | cons m rest ih =>
      intro hm
      rw [List.flatMap_cons]
      have h1 : (em.findTransferPaths m.id destEntityId).filterMap (fun path =>
          match lookupA costs (getCostKey productId m.id period) with
          | none => none
          | some sourceCost => some ((evalPath em m.id sourceCost.totalCost path).1,
              (evalPath em m.id sourceCost.totalCost path).2, m.id)) = [] := by
        rcases hm m (List.mem_cons_self _ _) with h2 | h2
        · rw [h2]
          simp
        · rw [h2]
          rfl
      rw [h1, List.nil_append]
      exact ih (fun x hx => hm x (List.mem_cons_of_mem _ hx))
  exact hgen _ h

-- ===========================================================================
-- CLAIM THEOREMS (C2, C8)
-- ===========================================================================

/-- C2: whenever the destination is a distribution entity and at least
    one candidate exists (a manufacturing source entity with a stored
    cost and a transfer path), calculateTransferPrice selects the
    candidate whose final accumulated cost (each hop's markup, then
    cross-border duty) is the global minimum over all paths from all
    manufacturing source entities, ties broken in favour of the first
    candidate in source/path enumeration order, and stores that
    candidate's breakdown under the destination's cost key. -/
theorem c2_calculateTransferPrice_global_min (em : EntityManager)
    (costs : List (String × CostRecord)) (productId destEntityId period : String)
    (destEntity : Entity) (hdest : em.getEntity destEntityId = some destEntity)
    (hdist : destEntity.type = "distribution")
    (c0 : ℚ × List PathStep × String) (cs : List (ℚ × List PathStep × String))
    (hcand : candidates em costs productId destEntityId period = c0 :: cs) :
    ∃ b sourceCost l1 l2,
      selectBest em costs productId destEntityId period = some b ∧
      (∀ c ∈ candidates em costs productId destEntityId period, b.1 ≤ c.1) ∧
      candidates em costs productId destEntityId period = l1 ++ b :: l2 ∧
      (∀ c ∈ l1, b.1 < c.1) ∧
      lookupA costs (getCostKey productId b.2.2 period) = some sourceCost ∧
      lookupA (calculateTransferPrice em costs productId destEntityId period)
          (getCostKey productId destEntityId period) =
        some (transferBreakdown sourceCost b.1 b.2.2 b.2.1) := by
  have hsel : selectBest em costs productId destEntityId period =
      some (cs.foldl betterOf c0) := by
    rw [selectBest_eq, hcand, List.foldl_cons]
    exact foldl_optBetter_some cs c0
  obtain ⟨hmin, l1, l2, hsplit, hpre⟩ := foldl_betterOf_first_min cs c0
  have hbmem : cs.foldl betterOf c0 ∈
      candidates em costs productId destEntityId period := by
    rw [hcand, hsplit]
    exact List.mem_append.mpr (Or.inr (List.mem_cons_self _ _))
  obtain ⟨sourceCost, hsc⟩ :=
    candidates_mem_lookup em costs productId destEntityId period _ hbmem
  refine ⟨cs.foldl betterOf c0, sourceCost, l1, l2, hsel, ?_, ?_, hpre, hsc, ?_⟩
  · intro c hcmem
    rw [hcand] at hcmem
    exact hmin c hcmem
  · rw [hcand]
    exact hsplit
  · unfold calculateTransferPrice
    rw [hdest]
    simp only []
    rw [if_neg (by simp [hdist]), hsel]
    simp only []
    rw [hsc]
    simp only []
    exact lookupA_setA_self costs _ _

/-- C8 (amended): when no transfer path exists from any manufacturing
    entity with a stored cost, calculateTransferPrice leaves the costs
    Map untouched (the destination's cost stays unset), returns without
    raising, and leaves the warnings list exactly as it was: no warning
    is surfaced (nothing in the source ever writes to this.warnings). -/
theorem c8_no_path_no_warning (em : EntityManager)
    (costs : List (String × CostRecord)) (warnings : List String)
    (productId destEntityId period : String)
    (hnopath : ∀ mfg ∈ em.getManufacturingEntities,
      lookupA costs (getCostKey productId mfg.id period) = none ∨
      em.findTransferPaths mfg.id destEntityId = []) :
    calculateTransferPriceW em costs warnings productId destEntityId period =
      (costs, warnings) := by
  have hsel : selectBest em costs productId destEntityId period = none := by
    rw [selectBest_eq,
      candidates_nil em costs productId destEntityId period hnopath]
    rfl
  have hmain : calculateTransferPrice em costs productId destEntityId period =
      costs := by
    unfold calculateTransferPrice
    cases hde : em.getEntity destEntityId with
    | none => rfl
    | some d =>
      simp only []
      split_ifs with ht
      · rfl
      · rw [hsel]
  unfold calculateTransferPriceW
  rw [hmain]

-- ===========================================================================
-- Concrete data for the C2 and C8 witnesses
-- ===========================================================================

/-- C2 witness configuration: manufacturing M1 and distribution D1 in
    the same country, one cost-plus route M1→D1 with markupValue 1. -/
def c2em : EntityManager :=
  mkEntityManager
    [⟨"M1", "manufacturing", "US"⟩, ⟨"D1", "distribution", "US"⟩]
    [{ source := "M1", dest := "D1", itemTypes := [], markupType := "cost-plus",
       markupValue := 1 }]

/-- C2 witness costs: M1 has a stored cost of totalCost 100 for product
    P in period Q. -/
def c2costs : List (String × CostRecord) := [("P:M1:Q", { totalCost := 100 })]

theorem c2em_paths : c2em.findTransferPaths "M1" "D1" =
    [[("M1", none), ("D1", some ("D1", ⟨[], "cost-plus", 1⟩))]] := by
  show Graph.findPathsDfs c2em.transferGraph 10 "D1" "M1" [("M1", none)] ["M1"] = _
  rw [Graph.findPathsDfs, dif_neg (by decide), if_neg (by decide)]
  have hn : c2em.transferGraph.neighborsOf "M1" =
      [("D1", ⟨[], "cost-plus", 1⟩)] := by decide
  rw [hn, List.foldl_cons, List.foldl_nil]
  simp only []
  rw [if_neg (by decide), List.nil_append]
  rw [Graph.findPathsDfs, dif_neg (by decide), if_pos (by decide)]
  rfl

theorem c2em_candidates : candidates c2em c2costs "P" "D1" "Q" =
    [(200, [⟨"M1", 100, none⟩, ⟨"D1", 200, some 1⟩], "M1")] := by
  have hmfg : c2em.getManufacturingEntities = [⟨"M1", "manufacturing", "US"⟩] := by
    decide
  unfold candidates
  rw [hmfg, List.flatMap_cons, List.flatMap_nil, List.append_nil]
  have hpaths : c2em.findTransferPaths (Entity.id ⟨"M1", "manufacturing", "US"⟩)
      "D1" = [[("M1", none), ("D1", some ("D1", ⟨[], "cost-plus", 1⟩))]] :=
    c2em_paths
  rw [hpaths, List.filterMap_cons, List.filterMap_nil]
  have hlk : lookupA c2costs
      (getCostKey "P" (Entity.id ⟨"M1", "manufacturing", "US"⟩) "Q") =
      some { totalCost := 100 } := by decide
  rw [hlk]
  have hcb : c2em.isCrossBorder "M1" "D1" = false := by decide
  norm_num [evalPath, transferHops, applyMarkup, applyDuty, stepMeta, hcb]

/-- C8 witness/counterexample configuration: manufacturing M1 with a
    stored cost, distribution D1, and no transfer routes at all. -/
def c8em : EntityManager :=
  mkEntityManager
    [⟨"M1", "manufacturing", "US"⟩, ⟨"D1", "distribution", "DE"⟩] []

def c8costs : List (String × CostRecord) := [("P:M1:Q", { totalCost := 100 })]

theorem c8em_no_paths : ∀ mfg ∈ c8em.getManufacturingEntities,
    c8em.findTransferPaths mfg.id "D1" = [] := by
  have hmfg : c8em.getManufacturingEntities = [⟨"M1", "manufacturing", "US"⟩] := by
    decide
  rw [hmfg]
  intro mfg hmfg2
  simp at hmfg2
  subst hmfg2
  show Graph.findPathsDfs c8em.transferGraph 10 "D1" "M1" [("M1", none)] ["M1"] = []
  rw [Graph.findPathsDfs, dif_neg (by decide), if_neg (by decide)]
  have hn : c8em.transferGraph.neighborsOf "M1" = [] := by decide
  rw [hn]
  rfl

/-- C2 witness: on the concrete one-route configuration the claim
    instantiates — the single candidate (cost 200 = 100 with the
    cost-plus markup 1, no duty within one country) is selected and its
    breakdown stored for D1. -/
theorem c2_calculateTransferPrice_global_min_witness :
    ∃ b sourceCost l1 l2,
      selectBest c2em c2costs "P" "D1" "Q" = some b ∧
      (∀ c ∈ candidates c2em c2costs "P" "D1" "Q", b.1 ≤ c.1) ∧
      candidates c2em c2costs "P" "D1" "Q" = l1 ++ b :: l2 ∧
      (∀ c ∈ l1, b.1 < c.1) ∧
      lookupA c2costs (getCostKey "P" b.2.2 "Q") = some sourceCost ∧
      lookupA (calculateTransferPrice c2em c2costs "P" "D1" "Q")
          (getCostKey "P" "D1" "Q") =
        some (transferBreakdown sourceCost b.1 b.2.2 b.2.1) :=
  c2_calculateTransferPrice_global_min c2em c2costs "P" "D1" "Q"
    ⟨"D1", "distribution", "US"⟩ (by decide) rfl
    (200, [⟨"M1", 100, none⟩, ⟨"D1", 200, some 1⟩], "M1") [] c2em_candidates

/-- The no-route scenario leaves the cost map untouched. -/
theorem c8em_ctp_unchanged :
    calculateTransferPrice c8em c8costs "P" "D1" "Q" = c8costs := by
  have hsel : selectBest c8em c8costs "P" "D1" "Q" = none := by
    rw [selectBest_eq, candidates_nil c8em c8costs "P" "D1" "Q"
      (fun mfg hm => Or.inr (c8em_no_paths mfg hm))]
    rfl
  unfold calculateTransferPrice
  have hde : c8em.getEntity "D1" = some ⟨"D1", "distribution", "DE"⟩ := by decide
  rw [hde]
  simp only []
  rw [if_neg (by simp), hsel]

/-- C8 counterexample: the claim fails as stated on a configuration
    exactly in its scope — M1 is a manufacturing entity with a stored
    cost, D1 a distribution entity, and no transfer path exists — yet
    after calculateTransferPrice the warnings list is still empty: no
    warning is surfaced to the caller (the source never writes to
    this.warnings).  The cost is indeed left unset and no error is
    raised. -/
theorem c8_warnings_counterexample :
    (∃ mfg ∈ c8em.getManufacturingEntities,
      lookupA c8costs (getCostKey "P" mfg.id "Q") ≠ none) ∧
    c8em.getEntity "D1" = some ⟨"D1", "distribution", "DE"⟩ ∧
    (∀ mfg ∈ c8em.getManufacturingEntities,
      c8em.findTransferPaths mfg.id "D1" = []) ∧
    calculateTransferPriceW c8em c8costs [] "P" "D1" "Q" = (c8costs, []) ∧
    lookupA (calculateTransferPriceW c8em c8costs [] "P" "D1" "Q").1
      (getCostKey "P" "D1" "Q") = none := by
  refine ⟨⟨⟨"M1", "manufacturing", "US"⟩, by decide, by decide⟩, by decide,
    c8em_no_paths, ?_, ?_⟩
  · unfold calculateTransferPriceW
    rw [c8em_ctp_unchanged]
  · unfold calculateTransferPriceW
    rw [c8em_ctp_unchanged]
    decide

/-- C8 witness: the amended claim instantiates on the same no-route
    configuration. -/
theorem c8_no_path_no_warning_witness :
    calculateTransferPriceW c8em c8costs [] "P" "D1" "Q" = (c8costs, []) :=
  c8_no_path_no_warning c8em c8costs [] "P" "D1" "Q"
    (fun mfg hm => Or.inr (c8em_no_paths mfg hm))

end SupplyChain
